import Mathlib

/-!
# white-cmd: command-line tokenizer and whitelist validator

A shallow embedding of `parse/param_parse.go` (the tokenizer state machine) and
`validator.go` (the whitelist evaluator), followed by theorems about them.

Go strings are modelled by the sequence of Unicode scalar values that
`[]rune(s)` yields (`List Char`); every buffer the tokenizer builds is written
rune by rune, so this loses nothing for the tokens it returns.
-/

namespace WhiteCmd

/-- A Go string, seen as its sequence of runes. -/
abbrev GoString := List Char

/-! ## Characters the tokenizer distinguishes -/

/-- The backslash character. -/
abbrev cBackslash : Char := Char.ofNat 92
/-- The single-quote character. -/
abbrev cSingle : Char := Char.ofNat 39
/-- The double-quote character. -/
abbrev cDouble : Char := Char.ofNat 34
/-- The backtick character. -/
abbrev cBacktick : Char := Char.ofNat 96
/-- The dollar character. -/
abbrev cDollar : Char := Char.ofNat 36
/-- The opening parenthesis. -/
abbrev cLParen : Char := Char.ofNat 40
/-- The closing parenthesis. -/
abbrev cRParen : Char := Char.ofNat 41

/-- Go `isSpace` of `param_parse.go`: space, tab, CR, LF. -/
def isSpace (r : Char) : Bool :=
  r = Char.ofNat 32 || r = Char.ofNat 9 || r = Char.ofNat 13 || r = Char.ofNat 10

/-- The separators of the `case ';', '&', '|', '<', '>'` arm of `Parser.Parse`. -/
def isMeta (r : Char) : Bool :=
  r = Char.ofNat 59 || r = Char.ofNat 38 || r = Char.ofNat 124 || r = Char.ofNat 60 ||
    r = Char.ofNat 62

/-! ## Standard-library functions used by the source -/

/-- Go `unicode.IsSpace`: the code points with the White_Space property. -/
def unicodeIsSpace (r : Char) : Bool :=
  let n := r.toNat
  (9 ≤ n && n ≤ 13) || n = 32 || n = 0x85 || n = 0xA0 || n = 0x1680 ||
    (0x2000 ≤ n && n ≤ 0x200A) || n = 0x2028 || n = 0x2029 || n = 0x202F ||
    n = 0x205F || n = 0x3000

/-- Go `strings.TrimSpace`: drop leading and trailing `unicode.IsSpace` runes. -/
def TrimSpace (s : GoString) : GoString :=
  (s.dropWhile unicodeIsSpace).rdropWhile unicodeIsSpace

/-- Go `unicode.ToLower` on one rune; `table` is the Unicode case table used
above the ASCII range. -/
def toLowerRune (table : Char → Char) (c : Char) : Char :=
  if c.toNat < 128 then
    if 65 ≤ c.toNat ∧ c.toNat ≤ 90 then Char.ofNat (c.toNat + 32) else c
  else table c

/-- Go `strings.ToLower`. -/
def ToLower (table : Char → Char) (s : GoString) : GoString :=
  s.map (toLowerRune table)

/-- Go `strings.HasPrefix(s, "-")`. -/
def hasDash (s : GoString) : Bool :=
  match s with
  | c :: _ => c = Char.ofNat 45
  | [] => false

/-- Go `strings.SplitN(s, "=", 2)[0]`: the part before the first `=`. -/
def beforeEq (s : GoString) : GoString :=
  s.takeWhile (fun c => c ≠ Char.ofNat 61)

/-! ## The tokenizer (`parse/param_parse.go`) -/

/-- Go `Parser`. -/
structure Parser where
  ParseBacktick : Bool
  Position : Int
  Dir : GoString
  deriving DecidableEq, Repr

/-- Go `NewParser`; the argument is the package variable `ParseBacktick`. -/
def NewParser (ParseBacktick : Bool) : Parser :=
  { ParseBacktick := ParseBacktick, Position := 0, Dir := [] }

/-- Go `argParseState`. -/
inductive argParseState
  | StateNormal
  | StateEscaped
  | StateSingleQuote
  | StateDoubleQuote
  | StateBacktick
  | StateDollarCommand
  deriving DecidableEq, Repr

open argParseState

/-- Go `getStateName`. -/
def getStateName (s : argParseState) : String :=
  match s with
  | StateNormal => "normal"
  | StateEscaped => "escape sequence"
  | StateSingleQuote => "single quote"
  | StateDoubleQuote => "double quote"
  | StateBacktick => "backtick"
  | StateDollarCommand => "dollar command"

/-- The errors `Parser.Parse` returns, one constructor per `fmt.Errorf` site. -/
inductive ParseError
  | backtickFailed (cause : GoString)
  | dollarFailed (cause : GoString)
  | unclosed (stateName : String)
  deriving DecidableEq, Repr

/-- The command-execution helper `exec.ExecSh(line, dir)`, taken as a function. -/
abbrev Exec := GoString → GoString → Except GoString GoString

/-- The local variables of `Parser.Parse` that live across loop iterations. -/
structure Scan where
  args : List GoString
  currentArgBuf : GoString
  backtickCmdBuf : GoString
  state : argParseState
  pos : Int
  deriving DecidableEq, Repr

/-- The values of the locals before the loop. -/
def Scan.init : Scan :=
  { args := [], currentArgBuf := [], backtickCmdBuf := [], state := StateNormal, pos := -1 }

/-- The statement `if currentArgBuf.Len() > 0 { args = append(...); Reset() }`. -/
def Scan.flush (s : Scan) : Scan :=
  if s.currentArgBuf.length > 0 then
    { s with args := s.args ++ [s.currentArgBuf], currentArgBuf := [] }
  else s

/-- The call `currentArgBuf.WriteRune(r)`. -/
def Scan.write (s : Scan) (r : Char) : Scan :=
  { s with currentArgBuf := s.currentArgBuf ++ [r] }

/-- How one iteration of the loop body ends. -/
inductive Flow
  | next (s : Scan)
  | endLoop (s : Scan)
  | ret (e : ParseError)
  deriving DecidableEq, Repr

/-- One iteration of the `for i, r := range runes` loop of `Parser.Parse`.
`look` is `runes[i+1]` when `i+1 < len(runes)`. The statements `i++` of the
source assign to the per-iteration copy of the range index and so do not skip
a rune; they have no counterpart here. -/
def body (exec : Exec) (p : Parser) (i : Nat) (r : Char) (look : Option Char) (s : Scan) :
    Flow :=
  match s.state with
  | StateNormal =>
    if isSpace r then .next s.flush
    else if r = cBackslash then .next { s with state := StateEscaped }
    else if r = cSingle then .next { s with state := StateSingleQuote }
    else if r = cDouble then .next { s with state := StateDoubleQuote }
    else if r = cBacktick then
      if p.ParseBacktick then .next { s with state := StateBacktick }
      else .next (s.write r)
    else if r = cDollar then
      if look = some cLParen then
        if p.ParseBacktick then
          .next { (s.write r).write cLParen with state := StateDollarCommand }
        else .next (s.write r)
      else .next (s.write r)
    else if isMeta r then .endLoop { s.flush with pos := (i : Int) }
    else .next (s.write r)
  | StateEscaped => .next { s.write r with state := StateNormal }
  | StateSingleQuote =>
    if r = cSingle then .next { s with state := StateNormal }
    else .next (s.write r)
  | StateDoubleQuote =>
    if r = cDouble then .next { s with state := StateNormal }
    else if r = cBackslash then
      match look with
      | some c => .next ((s.write r).write c)
      | none => .next (s.write r)
    else .next (s.write r)
  | StateBacktick =>
    if r = cBacktick then
      if p.ParseBacktick then
        match exec s.backtickCmdBuf p.Dir with
        | .error e => .ret (.backtickFailed e)
        | .ok out =>
          .next { s with currentArgBuf := s.currentArgBuf ++ out, backtickCmdBuf := [],
                         state := StateNormal }
      else
        .next { s with currentArgBuf := s.currentArgBuf ++ [cBacktick] ++ s.backtickCmdBuf ++
                         [cBacktick],
                       backtickCmdBuf := [], state := StateNormal }
    else .next { s with backtickCmdBuf := s.backtickCmdBuf ++ [r] }
  | StateDollarCommand =>
    if r = cRParen then
      if p.ParseBacktick then
        match exec s.backtickCmdBuf p.Dir with
        | .error e => .ret (.dollarFailed e)
        | .ok out =>
          let kept :=
            if [cDollar, cLParen] <:+ s.currentArgBuf then s.currentArgBuf.dropLast.dropLast
            else s.currentArgBuf
          .next { s with currentArgBuf := kept ++ out, backtickCmdBuf := [],
                         state := StateNormal }
      else
        .next { s with currentArgBuf := s.currentArgBuf ++ [cDollar, cLParen] ++
                         s.backtickCmdBuf ++ [cRParen],
                       backtickCmdBuf := [], state := StateNormal }
    else .next { s with backtickCmdBuf := s.backtickCmdBuf ++ [r] }

/-- The `for i, r := range runes` loop, from index `i` over the remaining runes.
The result is the locals on reaching the label `endLoop`, or the error of an
early `return`. -/
def loop (exec : Exec) (p : Parser) : Nat → List Char → Scan → Except ParseError Scan
  | _, [], s => .ok s
  | i, r :: rest, s =>
    match body exec p i r rest.head? s with
    | .next s1 => loop exec p (i + 1) rest s1
    | .endLoop s1 => .ok s1
    | .ret e => .error e

/-- The code after the label `endLoop`: the last flush, the unclosed-span check
and the assignment of `p.Position`. The second component is the parser after
the call. -/
def finish (p : Parser) (s : Scan) : Except ParseError (List GoString) × Parser :=
  let args := if s.currentArgBuf.length > 0 then s.args ++ [s.currentArgBuf] else s.args
  if s.state ≠ StateNormal then (.error (.unclosed (getStateName s.state)), p)
  else (.ok args, { p with Position := s.pos })

/-- Go `(*Parser).Parse`. -/
def Parser.Parse (exec : Exec) (p : Parser) (line : GoString) :
    Except ParseError (List GoString) × Parser :=
  match loop exec p 0 line Scan.init with
  | .error e => (.error e, p)
  | .ok s => finish p s

/-- Go package function `Parse`; `pb` is the package variable `ParseBacktick`. -/
def Parse (exec : Exec) (pb : Bool) (line : GoString) : Except ParseError (List GoString) :=
  ((NewParser pb).Parse exec line).1

/-! ## The validator (`validator.go`, `config.go`) -/

/-- Go `Config`: the map `Commands` as an association list. -/
structure Config where
  Commands : List (GoString × List GoString)

/-- Go `Validator`. -/
structure Validator where
  config : Config

/-- The errors `Validate` returns, one constructor per site. -/
inductive ValidateError
  | emptyCommand
  | parse (e : ParseError)
  | invalidFormat
  | notWhite
  deriving DecidableEq, Repr

/-- The `for _, arg := range args` loop of `validateArgs`. -/
def argsLoop (whiteArgs : List GoString) : List GoString → Bool
  | [] => true
  | arg :: rest =>
    let arg := TrimSpace arg
    if arg.length = 0 || !hasDash arg then argsLoop whiteArgs rest
    else if beforeEq arg ∉ whiteArgs then false
    else argsLoop whiteArgs rest

/-- Go `(*Validator).validateArgs`. -/
def validateArgs (args : List GoString) (whiteArgs : List GoString) : Bool :=
  if whiteArgs.length = 0 ∧ args.length > 1 then false
  else if whiteArgs = ["*".toList] then true
  else argsLoop whiteArgs args

/-- The environment of `Validate`: the package variable `parse.ParseBacktick`,
the helper `exec.ExecSh`, and the Unicode case table behind `strings.ToLower`. -/
structure Host where
  ParseBacktick : Bool
  ExecSh : Exec
  lowerTable : Char → Char

/-- Go `(*Validator).Validate`. -/
def Validator.Validate (h : Host) (v : Validator) (cmd : GoString) : Except ValidateError Bool :=
  let cmd := TrimSpace cmd
  if cmd = [] then .error .emptyCommand
  else
    match Parse h.ExecSh h.ParseBacktick cmd with
    | .error e => .error (.parse e)
    | .ok args =>
      match args with
      | [] => .error .invalidFormat
      | a0 :: rest =>
        match v.config.Commands.lookup (ToLower h.lowerTable a0) with
        | none => .error .notWhite
        | some whiteArgs => .ok (validateArgs rest whiteArgs)

/-! ## Observations of a run, used to state the theorems -/

/-- The state in which iteration `k` of the loop (started at index `i` on the
given runes) examines its rune; `none` when the loop ends before iteration `k`. -/
def stateAt (exec : Exec) (p : Parser) : Nat → List Char → Scan → Nat → Option argParseState
  | _, [], _, _ => none
  | _, _ :: _, s, 0 => some s.state
  | i, r :: rest, s, k + 1 =>
    match body exec p i r rest.head? s with
    | .next s1 => stateAt exec p (i + 1) rest s1 k
    | _ => none

/-- Rune `k` of `line` is one of `; & | < >` and `Parser.Parse` examines it in
the Normal state. -/
def metAt (exec : Exec) (p : Parser) (line : GoString) (k : Nat) : Bool :=
  decide (stateAt exec p 0 line Scan.init k = some StateNormal) &&
    (match line.get? k with
     | some c => isMeta c
     | none => false)

/-- The tokenizer scans all of `P` without an early return and without meeting
one of `; & | < >` in the Normal state, and is in the Normal state at the end. -/
def scansClean (exec : Exec) (p : Parser) (P : GoString) : Bool :=
  match loop exec p 0 P Scan.init with
  | .ok s => decide (s.state = StateNormal) && decide (s.pos = -1)
  | .error _ => false

/-- One of the characters `\ ' " $ ; & | < >` or the backtick. -/
def isSpecial (r : Char) : Bool :=
  r = cBackslash || r = cSingle || r = cDouble || r = cBacktick || r = cDollar || isMeta r

/-- The whitespace split the specification speaks of: the maximal runs of
runes that are not space, tab, CR or LF, in their order (split at every
whitespace rune, empty pieces dropped). -/
def fields (line : GoString) : List GoString :=
  (line.splitOnP isSpace).filter (fun w => !w.isEmpty)

/-- The tokens returned after `endLoop` for the locals `s`. -/
def finalArgs (s : Scan) : List GoString :=
  if s.currentArgBuf.length > 0 then s.args ++ [s.currentArgBuf] else s.args

/-! ## Calls to the execution helper -/

/-- The arguments of the call `exec.ExecSh(cmd, p.Dir)` that one iteration of
the loop makes, if it makes one: on the closing backtick in `StateBacktick`
and on the closing parenthesis in `StateDollarCommand`, both under
`p.ParseBacktick`. -/
def bodyCall (p : Parser) (r : Char) (s : Scan) : Option (GoString × GoString) :=
  match s.state with
  | StateBacktick =>
    if r = cBacktick ∧ p.ParseBacktick = true then some (s.backtickCmdBuf, p.Dir) else none
  | StateDollarCommand =>
    if r = cRParen ∧ p.ParseBacktick = true then some (s.backtickCmdBuf, p.Dir) else none
  | _ => none

/-- The calls to `exec.ExecSh` that the loop makes, in order, from index `i`
over the remaining runes. -/
def execCalls (exec : Exec) (p : Parser) : Nat → List Char → Scan → List (GoString × GoString)
  | _, [], _ => []
  | i, r :: rest, s =>
    (bodyCall p r s).toList ++
      match body exec p i r rest.head? s with
      | .next s1 => execCalls exec p (i + 1) rest s1
      | _ => []

/-- Go `strings.Join(toks, " ")`. -/
def joinSpaces (toks : List GoString) : GoString :=
  List.intercalate [Char.ofNat 32] toks

/-- One of the characters `\ ' "` and `; & | < >`: those that remain special
when substitution is disabled. -/
def isQuoting (r : Char) : Bool :=
  r = cBackslash || r = cSingle || r = cDouble || isMeta r

/-! ## Concrete inputs of the examples -/

/-- The line of the truncation example, `git --version=2; rm -rf /`. -/
def gitLine : GoString := "git --version=2; rm -rf /".toList

/-- An execution helper that always fails; used where no sub-command runs. -/
def noExec : Exec := fun _ _ => .error []

/-- A host with substitution disabled. -/
def plainHost : Host := { ParseBacktick := false, ExecSh := noExec, lowerTable := id }

/-- The whitelist `{"git": ["-v", "--version"]}`. -/
def gitValidator : Validator :=
  { config := { Commands := [("git".toList, ["-v".toList, "--version".toList])] } }

/-- The allowed-list `["-v", "--version"]`. -/
def gitFlags : List GoString := ["-v".toList, "--version".toList]

/-- The whitelist `{"ls": ["*"]}`. -/
def lsValidator : Validator :=
  { config := { Commands := [("ls".toList, ["*".toList])] } }

/-- The whitelist `{"echo": []}`. -/
def echoValidator : Validator :=
  { config := { Commands := [("echo".toList, [])] } }

/-- The line `ls \ ` (ending in a backslash and a space). -/
def lsEscapedSpace : GoString := "ls ".toList ++ [cBackslash, Char.ofNat 32]

/-- The line `echo hello \ ` (ending in a backslash and a space). -/
def echoEscapedSpace : GoString := "echo hello ".toList ++ [cBackslash, Char.ofNat 32]

/-- An execution helper that knows the command `echo hi` only. -/
def echoExec : Exec := fun cmd _ =>
  if cmd = "echo hi".toList then .ok "hi".toList else .error "syntax error".toList

/-- An execution helper whose commands succeed and print nothing. -/
def silentExec : Exec := fun _ _ => .ok []

/-- A parser with substitution enabled and working directory `/srv`. -/
def srvParser : Parser := { ParseBacktick := true, Position := 0, Dir := "/srv".toList }

/-- An execution helper that runs `echo hi there` in `/srv` and prints
`hi there`; any other call fails. -/
def greetExec : Exec := fun cmd dir =>
  if cmd = "echo hi there".toList ∧ dir = "/srv".toList then .ok "hi there".toList
  else .error "failed".toList

end WhiteCmd

/-! # Theorems -/

namespace WhiteCmd

open argParseState

variable {exec : Exec} {p : Parser}

/-! ## Facts about single characters and single iterations -/

theorem meta_facts {m : Char} (h : isMeta m = true) :
    isSpace m = false ∧ m ≠ cBackslash ∧ m ≠ cSingle ∧ m ≠ cDouble ∧ m ≠ cBacktick ∧
      m ≠ cDollar ∧ m ≠ cLParen ∧ unicodeIsSpace m = false := by
  simp only [isMeta, Bool.or_eq_true, decide_eq_true_eq] at h
  rcases h with (((rfl | rfl) | rfl) | rfl) | rfl <;> decide

theorem body_meta (exec : Exec) (p : Parser) (i : Nat) (r : Char) (look : Option Char)
    (s : Scan) (h : isMeta r = true) (hs : s.state = StateNormal) :
    body exec p i r look s = .endLoop { s.flush with pos := (i : Int) } := by
  obtain ⟨h1, h2, h3, h4, h5, h6, _, _⟩ := meta_facts h
  unfold body
  simp [hs, h1, h2, h3, h4, h5, h6, h]

theorem body_endLoop {i : Nat} {r : Char} {look : Option Char}
    {s s1 : Scan} (h : body exec p i r look s = .endLoop s1) :
    s.state = StateNormal ∧ isMeta r = true ∧ s1 = { s.flush with pos := (i : Int) } := by
  unfold body at h
  split at h <;> (try split_ifs at h) <;> (try split at h) <;> simp_all

theorem flush_pos (s : Scan) : s.flush.pos = s.pos := by
  unfold Scan.flush; split <;> rfl

theorem flush_state (s : Scan) : s.flush.state = s.state := by
  unfold Scan.flush; split <;> rfl

theorem flush_cmd (s : Scan) : s.flush.backtickCmdBuf = s.backtickCmdBuf := by
  unfold Scan.flush; split <;> rfl

theorem body_next_pos {i : Nat} {r : Char} {look : Option Char}
    {s s1 : Scan} (h : body exec p i r look s = .next s1) : s1.pos = s.pos := by
  unfold body at h
  split at h <;> (try split_ifs at h) <;> (try split at h) <;>
    simp_all [Scan.write] <;> (try subst h) <;> simp_all [flush_pos]

theorem body_look_meta {i : Nat} {r m : Char}
    {s s1 : Scan} (hm : isMeta m = true) (h : body exec p i r (some m) s = .next s1)
    (h1 : s1.state = StateNormal) : body exec p i r none s = .next s1 := by
  obtain ⟨_, _, _, _, _, _, h7, _⟩ := meta_facts hm
  unfold body at h ⊢
  split at h <;> (try split_ifs at h) <;> simp_all [Scan.write]
  subst h
  simp at h1

/-! ## Where the loop stops -/

theorem stateAt_stop : ∀ (l : List Char) (i : Nat) (s : Scan) (k : Nat) (m : Char),
    stateAt exec p i l s k = some StateNormal → l.get? k = some m → isMeta m = true →
    ∃ s2, loop exec p i (l.take k) s = .ok s2 ∧ s2.state = StateNormal ∧ s2.pos = s.pos ∧
      loop exec p i l s = .ok { s2.flush with pos := ((i + k : Nat) : Int) } := by
  intro l
  induction l with
  | nil => intro i s k m h; simp [stateAt] at h
  | cons r rest ih =>
    intro i s k m h hg hm
    cases k with
    | zero =>
      simp only [stateAt, Option.some.injEq] at h
      simp only [List.get?_cons_zero, Option.some.injEq] at hg
      subst hg
      exact ⟨s, by simp [loop], h, rfl, by simp [loop, body_meta exec p i r _ s hm h]⟩
    | succ k =>
      simp only [stateAt] at h
      have hg1 : rest.get? k = some m := by simpa using hg
      cases hb : body exec p i r rest.head? s with
      | next s1 =>
        rw [hb] at h
        obtain ⟨s2, h1, h2, h3, h4⟩ := ih (i + 1) s1 k m h hg1 hm
        have hb1 : body exec p i r (rest.take k).head? s = .next s1 := by
          cases rest with
          | nil => simp at hg1
          | cons c rest1 =>
            cases k with
            | zero =>
              simp only [List.get?_cons_zero, Option.some.injEq] at hg1
              subst hg1
              simp only [stateAt, Option.some.injEq] at h
              exact body_look_meta hm (by simpa using hb) h
            | succ k1 => simpa using hb
        refine ⟨s2, ?_, h2, by rw [h3, body_next_pos hb], ?_⟩
        · simp only [List.take_succ_cons, loop, hb1, h1]
        · simp only [loop, hb, h4]
          congr 3
          omega
      | endLoop s1 => rw [hb] at h; simp at h
      | ret e => rw [hb] at h; simp at h

theorem stateAt_none_after : ∀ (l : List Char) (i : Nat) (s : Scan) (j : Nat) (m : Char),
    stateAt exec p i l s j = some StateNormal → l.get? j = some m → isMeta m = true →
    ∀ k, j < k → stateAt exec p i l s k = none := by
  intro l
  induction l with
  | nil => intro i s j m h; simp [stateAt] at h
  | cons r rest ih =>
    intro i s j m h hg hm k hk
    obtain ⟨k, rfl⟩ : ∃ k1, k = k1 + 1 := ⟨k - 1, by omega⟩
    cases j with
    | zero =>
      simp only [stateAt, Option.some.injEq] at h
      simp only [List.get?_cons_zero, Option.some.injEq] at hg
      subst hg
      simp [stateAt, body_meta exec p i r _ s hm h]
    | succ j =>
      simp only [stateAt] at h ⊢
      cases hb : body exec p i r rest.head? s with
      | next s1 =>
        rw [hb] at h
        exact ih (i + 1) s1 j m h (by simpa using hg) hm k (by omega)
      | endLoop s1 => rfl
      | ret e => rfl

theorem loop_pos_of_no_meta : ∀ (l : List Char) (i : Nat) (s s1 : Scan),
    loop exec p i l s = .ok s1 →
    (∀ k m, stateAt exec p i l s k = some StateNormal → l.get? k = some m → isMeta m = false) →
    s1.pos = s.pos := by
  intro l
  induction l with
  | nil => intro i s s1 h _; simp only [loop, Except.ok.injEq] at h; rw [h]
  | cons r rest ih =>
    intro i s s1 h hno
    simp only [loop] at h
    cases hb : body exec p i r rest.head? s with
    | next s2 =>
      rw [hb] at h
      rw [ih (i + 1) s2 s1 h, body_next_pos hb]
      intro k m hk hg
      exact hno (k + 1) m (by simpa [stateAt, hb] using hk) (by simpa using hg)
    | endLoop s2 =>
      obtain ⟨h1, h2, _⟩ := body_endLoop hb
      have := hno 0 r (by simp [stateAt, h1]) (by simp)
      simp [h2] at this
    | ret e => rw [hb] at h; simp at h

/-- The token list returned after `endLoop` does not change when the last
flush has already been done by the separator arm. -/
theorem finish_flush (p : Parser) (s : Scan) (n : Int) :
    (finish p { s.flush with pos := n }).1 = (finish p s).1 := by
  unfold finish Scan.flush
  by_cases hb : s.currentArgBuf.length > 0 <;> by_cases hs : s.state = StateNormal <;>
    simp [hb, hs]

/-! ## C1: the tokenizer stops at the first unquoted metacharacter -/

/-- C1. Whenever `Parser.Parse` succeeds on a line: if no rune that is one of
`; & | < >` is examined in the Normal state, `Position` is `-1`; and if rune `k`
is such a rune, then no earlier rune is, `Position` is the rune index `k`, and
the tokens returned are those `Parser.Parse` returns on the first `k` runes. -/
theorem parse_stops_at_first_metachar (exec : Exec) (p : Parser) (line : GoString)
    (toks : List GoString) (q : Parser)
    (h : Parser.Parse exec p line = (.ok toks, q)) :
    ((∀ k, metAt exec p line k = false) → q.Position = -1) ∧
    (∀ k, metAt exec p line k = true →
      (∀ j, j < k → metAt exec p line j = false) ∧ q.Position = (k : Int) ∧
        (Parser.Parse exec p (line.take k)).1 = .ok toks) := by
  unfold Parser.Parse at h
  cases hl : loop exec p 0 line Scan.init with
  | error e => rw [hl] at h; simp at h
  | ok s =>
    rw [hl] at h
    simp only at h
    have hq : q.Position = s.pos := by
      unfold finish at h
      by_cases hs : s.state = StateNormal
      · simp only [hs, ne_eq, not_true_eq_false, if_false, Prod.mk.injEq] at h
        rw [← h.2]
      · simp [hs] at h
    have ht : (finish p s).1 = .ok toks := by rw [h]
    refine ⟨?_, ?_⟩
    · intro hno
      rw [hq, loop_pos_of_no_meta line 0 Scan.init s hl]
      · rfl
      · intro k m hk hg
        have := hno k
        unfold metAt at this
        rw [hg] at this
        simpa [hk] using this
    · intro k hk
      simp only [metAt, Bool.and_eq_true, decide_eq_true_eq] at hk
      obtain ⟨hk1, hk2⟩ := hk
      cases hg : line.get? k with
      | none => rw [hg] at hk2; simp at hk2
      | some m =>
        rw [hg] at hk2
        simp only at hk2
        obtain ⟨s2, h1, _, _, h4⟩ := stateAt_stop line 0 Scan.init k m hk1 hg hk2
        rw [hl] at h4
        simp only [Except.ok.injEq] at h4
        refine ⟨?_, ?_, ?_⟩
        · intro j hj
          cases hmj : metAt exec p line j with
          | false => rfl
          | true =>
            simp only [metAt, Bool.and_eq_true, decide_eq_true_eq] at hmj
            obtain ⟨hj1, hj2⟩ := hmj
            cases hgj : line.get? j with
            | none => rw [hgj] at hj2; simp at hj2
            | some mj =>
              rw [hgj] at hj2
              have := stateAt_none_after line 0 Scan.init j mj hj1 hgj hj2 k hj
              rw [this] at hk1
              simp at hk1
        · rw [hq, h4]
          simp
        · unfold Parser.Parse
          rw [h1]
          simp only
          rw [← ht, h4, finish_flush]

/-- C1, witness: on `git --version=2; rm -rf /` the tokens are `git` and
`--version=2`, the separator is met at rune 15, and `Position` is 15. -/
theorem parse_stops_at_first_metachar_witness :
    Parser.Parse noExec (NewParser false) gitLine =
        (.ok ["git".toList, "--version=2".toList], { NewParser false with Position := 15 }) ∧
      metAt noExec (NewParser false) gitLine 15 = true ∧
      (({ NewParser false with Position := 15 } : Parser).Position = ((15 : Nat) : Int) ∧
        (Parser.Parse noExec (NewParser false) (gitLine.take 15)).1 =
          .ok ["git".toList, "--version=2".toList]) :=
  ⟨rfl, rfl,
    ((parse_stops_at_first_metachar noExec (NewParser false) gitLine
      ["git".toList, "--version=2".toList] { NewParser false with Position := 15 } rfl).2 15
      rfl).2⟩

/-! ## C2: nothing after the first unquoted metacharacter is inspected -/

theorem body_look_meta_rev {i : Nat} {r m : Char}
    {s s1 : Scan} (hm : isMeta m = true) (h : body exec p i r none s = .next s1)
    (h1 : s1.state = StateNormal) : body exec p i r (some m) s = .next s1 := by
  obtain ⟨_, _, _, _, _, _, h7, _⟩ := meta_facts hm
  unfold body at h ⊢
  split at h <;> (try split_ifs at h) <;> simp_all [Scan.write]
  subst h
  simp at h1

theorem natCast_ne_neg_one (i : Nat) : (i : Int) ≠ -1 := by omega

theorem stateAt_of_loop {m : Char} (suf : List Char) (hm : isMeta m = true) :
    ∀ (pre : List Char) (i : Nat) (s s1 : Scan),
    loop exec p i pre s = .ok s1 → s1.pos = -1 → s1.state = StateNormal →
    stateAt exec p i (pre ++ m :: suf) s pre.length = some StateNormal := by
  intro pre
  induction pre with
  | nil =>
    intro i s s1 h _ h2
    simp only [loop, Except.ok.injEq] at h
    subst h
    simp [stateAt, h2]
  | cons r rest ih =>
    intro i s s1 h h1 h2
    simp only [loop] at h
    cases hb : body exec p i r rest.head? s with
    | next s2 =>
      rw [hb] at h
      have hb1 : body exec p i r (rest ++ m :: suf).head? s = .next s2 := by
        cases rest with
        | nil =>
          simp only [loop, Except.ok.injEq] at h
          subst h
          exact body_look_meta_rev hm (by simpa using hb) h2
        | cons c rest1 => simpa using hb
      have := ih (i + 1) s2 s1 h h1 h2
      show stateAt exec p i (r :: (rest ++ m :: suf)) s (rest.length + 1) = some StateNormal
      simp only [stateAt, hb1]
      exact this
    | endLoop s2 =>
      rw [hb] at h
      simp only [Except.ok.injEq] at h
      subst h
      obtain ⟨_, _, h3⟩ := body_endLoop hb
      rw [h3] at h1
      exact absurd h1 (natCast_ne_neg_one i)
    | ret e => rw [hb] at h; simp at h

theorem scansClean_iff {P : GoString} :
    scansClean exec p P = true ↔
      ∃ s, loop exec p 0 P Scan.init = .ok s ∧ s.state = StateNormal ∧ s.pos = -1 := by
  unfold scansClean
  cases loop exec p 0 P Scan.init <;> simp

/-- On `P ++ m :: S`, with `P` scanned cleanly and `m` a separator, the tokens
are those of `P` alone. -/
theorem Parse_cut (exec : Exec) (pb : Bool) (P S : GoString) (m : Char)
    (hm : isMeta m = true) (hP : scansClean exec (NewParser pb) P = true) :
    Parse exec pb (P ++ m :: S) = Parse exec pb P := by
  obtain ⟨s, hl, hs, hpos⟩ := scansClean_iff.mp hP
  have hst := stateAt_of_loop S hm P 0 Scan.init s hl hpos hs
  obtain ⟨s2, h1, _, _, h4⟩ :=
    stateAt_stop (P ++ m :: S) 0 Scan.init P.length m hst
      (by rw [List.get?_eq_getElem?, List.getElem?_append_right (le_refl _)]; simp) hm
  rw [List.take_left, hl] at h1
  simp only [Except.ok.injEq] at h1
  subst h1
  unfold Parse Parser.Parse
  rw [h4, hl]
  exact finish_flush _ _ _

theorem dropWhile_append_stop {α : Type} (q : α → Bool) (m : α) (hm : q m = false) :
    ∀ (P S : List α), (P ++ m :: S).dropWhile q = P.dropWhile q ++ m :: S := by
  intro P
  induction P with
  | nil => intro S; simp [List.dropWhile, hm]
  | cons a P ih =>
    intro S
    by_cases ha : q a = true
    · simp [List.dropWhile, ha, ih]
    · simp [List.dropWhile, ha]

theorem rdropWhile_append_stop {α : Type} (q : α → Bool) (m : α) (hm : q m = false)
    (P S : List α) : (P ++ m :: S).rdropWhile q = P ++ m :: S.rdropWhile q := by
  unfold List.rdropWhile
  have h1 : (P ++ m :: S).reverse = S.reverse ++ m :: P.reverse := by simp
  rw [h1, dropWhile_append_stop q m hm]
  simp

/-- What `strings.TrimSpace` does to a line with a separator in it. -/
theorem TrimSpace_around_meta (P S : GoString) (m : Char) (hm : isMeta m = true) :
    TrimSpace (P ++ m :: S) =
      P.dropWhile unicodeIsSpace ++ m :: S.rdropWhile unicodeIsSpace := by
  have h := (meta_facts hm).2.2.2.2.2.2.2
  unfold TrimSpace
  rw [dropWhile_append_stop _ m h, rdropWhile_append_stop _ m h]

theorem uspace_facts {r : Char} (h : unicodeIsSpace r = true) :
    r ≠ cBackslash ∧ r ≠ cSingle ∧ r ≠ cDouble ∧ r ≠ cBacktick ∧ r ≠ cDollar ∧
      isMeta r = false := by
  refine ⟨?_, ?_, ?_, ?_, ?_, ?_⟩
  · rintro rfl; revert h; decide
  · rintro rfl; revert h; decide
  · rintro rfl; revert h; decide
  · rintro rfl; revert h; decide
  · rintro rfl; revert h; decide
  · cases hm : isMeta r with
    | false => rfl
    | true => rw [(meta_facts hm).2.2.2.2.2.2.2] at h; simp at h

/-- In the Normal state a rune that `unicode.IsSpace` accepts never changes
the state, the substitution buffer or the recorded position. -/
theorem body_uspace (exec : Exec) (p : Parser) (i : Nat) (r : Char) (look : Option Char)
    (s : Scan) (h : unicodeIsSpace r = true) (hs : s.state = StateNormal) :
    ∃ s1, body exec p i r look s = .next s1 ∧ s1.state = StateNormal ∧
      s1.backtickCmdBuf = s.backtickCmdBuf ∧ s1.pos = s.pos := by
  obtain ⟨h1, h2, h3, h4, h5, h6⟩ := uspace_facts h
  unfold body
  by_cases hsp : isSpace r = true
  · exact ⟨s.flush, by simp [hs, hsp], by rw [flush_state, hs], flush_cmd s, flush_pos s⟩
  · exact ⟨s.write r, by simp [hs, hsp, h1, h2, h3, h4, h5, h6], by simp [Scan.write, hs],
      by simp [Scan.write], by simp [Scan.write]⟩

theorem loop_uspace (exec : Exec) (p : Parser) (rest : List Char) :
    ∀ (ws : List Char) (i : Nat) (s : Scan), (∀ c ∈ ws, unicodeIsSpace c = true) →
    s.state = StateNormal →
    ∃ s1, s1.state = StateNormal ∧ s1.backtickCmdBuf = s.backtickCmdBuf ∧ s1.pos = s.pos ∧
      loop exec p i (ws ++ rest) s = loop exec p (i + ws.length) rest s1 := by
  intro ws
  induction ws with
  | nil => intro i s _ hs; exact ⟨s, hs, rfl, rfl, by simp⟩
  | cons r ws ih =>
    intro i s hws hs
    obtain ⟨s1, hb, h1, h2, h3⟩ :=
      body_uspace exec p i r (ws ++ rest).head? s (hws r (by simp)) hs
    obtain ⟨s2, g1, g2, g3, g4⟩ := ih (i + 1) s1 (fun c hc => hws c (by simp [hc])) h1
    refine ⟨s2, g1, by rw [g2, h2], by rw [g3, h3], ?_⟩
    have e : i + (r :: ws).length = i + 1 + ws.length := by simp only [List.length_cons]; omega
    rw [e, ← g4]
    show loop exec p i (r :: (ws ++ rest)) s = _
    simp only [loop, hb]

/-- The control part of an iteration (state and substitution buffer) does not
depend on the tokens collected so far nor on the index. -/
theorem body_sim {i j : Nat} {r : Char} {look : Option Char} {s t s1 : Scan}
    (hst : s.state = t.state) (hcmd : s.backtickCmdBuf = t.backtickCmdBuf)
    (h : body exec p i r look s = .next s1) :
    ∃ t1, body exec p j r look t = .next t1 ∧ s1.state = t1.state ∧
      s1.backtickCmdBuf = t1.backtickCmdBuf := by
  unfold body at h ⊢
  rw [← hst, ← hcmd]
  split at h <;> (try split_ifs at h) <;> (try split at h) <;>
    simp_all [Scan.write, flush_state, flush_cmd] <;> subst h <;>
    simp_all [Scan.write, flush_state, flush_cmd]

theorem loop_sim : ∀ (l : List Char) (i j : Nat) (s t s1 : Scan),
    s.state = t.state → s.backtickCmdBuf = t.backtickCmdBuf → t.pos = -1 →
    loop exec p i l s = .ok s1 → s1.pos = -1 →
    ∃ t1, loop exec p j l t = .ok t1 ∧ t1.state = s1.state ∧ t1.pos = -1 := by
  intro l
  induction l with
  | nil =>
    intro i j s t s1 hst _ ht h _
    simp only [loop, Except.ok.injEq] at h
    subst h
    exact ⟨t, rfl, hst.symm, ht⟩
  | cons r rest ih =>
    intro i j s t s1 hst hcmd ht h h1
    simp only [loop] at h
    cases hb : body exec p i r rest.head? s with
    | next s2 =>
      rw [hb] at h
      obtain ⟨t2, hb2, g1, g2⟩ := body_sim (j := j) hst hcmd hb
      obtain ⟨t1, k1, k2, k3⟩ :=
        ih (i + 1) (j + 1) s2 t2 s1 g1 g2 (by rw [body_next_pos hb2, ht]) h h1
      exact ⟨t1, by simp only [loop, hb2, k1], k2, k3⟩
    | endLoop s2 =>
      rw [hb] at h
      simp only [Except.ok.injEq] at h
      subst h
      obtain ⟨_, _, h3⟩ := body_endLoop hb
      rw [h3] at h1
      exact absurd h1 (natCast_ne_neg_one i)
    | ret e => rw [hb] at h; simp at h

/-- Dropping leading `unicode.IsSpace` runes keeps a cleanly scanned line
cleanly scanned. -/
theorem scansClean_dropWhile (exec : Exec) (p : Parser) (P : GoString)
    (hP : scansClean exec p P = true) :
    scansClean exec p (P.dropWhile unicodeIsSpace) = true := by
  obtain ⟨s, hl, hs, hpos⟩ := scansClean_iff.mp hP
  have hsplit : P = P.takeWhile unicodeIsSpace ++ P.dropWhile unicodeIsSpace :=
    (List.takeWhile_append_dropWhile _ _).symm
  obtain ⟨s1, h1, h2, h3, h4⟩ :=
    loop_uspace exec p (P.dropWhile unicodeIsSpace) (P.takeWhile unicodeIsSpace) 0 Scan.init
      (fun c hc => List.mem_takeWhile_imp hc) rfl
  rw [← hsplit, hl] at h4
  obtain ⟨t1, k1, k2, k3⟩ :=
    loop_sim (P.dropWhile unicodeIsSpace) _ 0 s1 Scan.init s (by rw [h1]; rfl)
      (by rw [h2]) rfl h4.symm hpos
  exact scansClean_iff.mpr ⟨t1, k1, by rw [k2, hs], k3⟩

/-- C2. For every whitelist and host, every prefix `P` that the tokenizer scans
to its end in the Normal state without meeting an unquoted `; & | < >`, every
such separator `m` and every two suffixes, `Validate` returns the same result
(decision or error) on `P ++ m ++ S1` and on `P ++ m ++ S2`. -/
theorem validate_ignores_text_after_metachar (h : Host) (v : Validator)
    (P S1 S2 : GoString) (m : Char) (hm : isMeta m = true)
    (hP : scansClean h.ExecSh (NewParser h.ParseBacktick) P = true) :
    v.Validate h (P ++ m :: S1) = v.Validate h (P ++ m :: S2) := by
  have hP1 := scansClean_dropWhile _ _ P hP
  unfold Validator.Validate
  simp only [TrimSpace_around_meta _ _ _ hm, Parse_cut _ _ _ _ _ hm hP1]
  simp

/-- C2, witness: `git --version=2` is scanned cleanly, and the validator, with
substitution disabled, answers alike whatever follows the `;`. -/
theorem validate_ignores_text_after_metachar_witness :
    isMeta (Char.ofNat 59) = true ∧
      scansClean plainHost.ExecSh (NewParser plainHost.ParseBacktick)
        "git --version=2".toList = true ∧
      gitValidator.Validate plainHost
          ("git --version=2".toList ++ Char.ofNat 59 :: " rm -rf /".toList) =
        gitValidator.Validate plainHost ("git --version=2".toList ++ Char.ofNat 59 :: []) :=
  ⟨by decide, by rfl,
    validate_ignores_text_after_metachar plainHost gitValidator "git --version=2".toList
      " rm -rf /".toList [] (Char.ofNat 59) (by decide) (by rfl)⟩

/-! ## C3: when `Validate` fails -/

/-- C3. `Validate` returns an error exactly when the trimmed input is empty, or
the tokenizer fails on the trimmed input, or it returns no token, or the
lowercased first token is not a key of the whitelist; in every other case the
result is, without error, `validateArgs` of the remaining tokens and the list
stored under the lowercased first token. -/
theorem validate_error_iff (h : Host) (v : Validator) (cmd : GoString) :
    ((∃ e, v.Validate h cmd = .error e) ↔
      (TrimSpace cmd = [] ∨
        (∃ e, Parse h.ExecSh h.ParseBacktick (TrimSpace cmd) = .error e) ∨
        Parse h.ExecSh h.ParseBacktick (TrimSpace cmd) = .ok [] ∨
        ∃ a0 rest, Parse h.ExecSh h.ParseBacktick (TrimSpace cmd) = .ok (a0 :: rest) ∧
          v.config.Commands.lookup (ToLower h.lowerTable a0) = none)) ∧
    (∀ a0 rest whiteArgs, TrimSpace cmd ≠ [] →
      Parse h.ExecSh h.ParseBacktick (TrimSpace cmd) = .ok (a0 :: rest) →
      v.config.Commands.lookup (ToLower h.lowerTable a0) = some whiteArgs →
      v.Validate h cmd = .ok (validateArgs rest whiteArgs)) := by
  unfold Validator.Validate
  by_cases h0 : TrimSpace cmd = []
  · simp [h0]
  · cases hp : Parse h.ExecSh h.ParseBacktick (TrimSpace cmd) with
    | error e => simp [h0, hp]
    | ok args =>
      cases args with
      | nil => simp [h0, hp]
      | cons a0 rest =>
        cases hl : v.config.Commands.lookup (ToLower h.lowerTable a0) with
        | none =>
          simp only [h0, hp, hl, if_false, false_or, Except.ok.injEq, List.cons.injEq,
            exists_false, reduceCtorEq]
          refine ⟨⟨fun _ => ⟨a0, rest, ⟨rfl, rfl⟩, hl⟩, fun _ => ⟨_, rfl⟩⟩, ?_⟩
          rintro b0 rest1 w - ⟨rfl, rfl⟩ hw
          rw [hl] at hw
          cases hw
        | some w =>
          simp only [h0, hp, hl, if_false, false_or, Except.ok.injEq, List.cons.injEq,
            exists_false, reduceCtorEq]
          refine ⟨⟨fun hh => ?_, ?_⟩, ?_⟩
          · simp at hh
          · rintro ⟨b0, rest1, ⟨rfl, rfl⟩, hb⟩
            rw [hl] at hb
            cases hb
          · rintro b0 rest1 w1 - ⟨rfl, rfl⟩ hw
            rw [hl] at hw
            cases hw
            rfl

/-- C3, witness: with whitelist `{"git": ["-v", "--version"]}` the line
`curl example.com` is an error (the command is not in the whitelist), and
`GIT -v` is looked up as `git` and accepted. -/
theorem validate_error_iff_witness :
    (∃ e, gitValidator.Validate plainHost "curl example.com".toList = .error e) ∧
      gitValidator.Validate plainHost "GIT -v".toList =
        .ok (validateArgs ["-v".toList] ["-v".toList, "--version".toList]) :=
  ⟨(validate_error_iff plainHost gitValidator "curl example.com".toList).1.mpr
      (Or.inr (Or.inr (Or.inr ⟨"curl".toList, ["example.com".toList], rfl, rfl⟩))),
    (validate_error_iff plainHost gitValidator "GIT -v".toList).2 "GIT".toList ["-v".toList]
      ["-v".toList, "--version".toList] (by decide) rfl rfl⟩

/-! ## C4: flag matching -/

theorem argsLoop_iff (allowed : List GoString) : ∀ args : List GoString,
    argsLoop allowed args = true ↔
      ∀ a ∈ args, hasDash (TrimSpace a) = true → beforeEq (TrimSpace a) ∈ allowed := by
  intro args
  induction args with
  | nil => simp [argsLoop]
  | cons a rest ih =>
    simp only [argsLoop, List.mem_cons, forall_eq_or_imp]
    by_cases hd : hasDash (TrimSpace a) = true
    · have hlen : (TrimSpace a).length ≠ 0 := by
        intro h0
        rw [List.length_eq_zero] at h0
        rw [h0] at hd
        simp [hasDash] at hd
      by_cases hm : beforeEq (TrimSpace a) ∈ allowed
      · simp [hd, hlen, hm, ih]
      · simp [hd, hlen, hm]
    · simp [hd, ih]

/-- C4. For an allowed-list that is non-empty and is not exactly `["*"]`,
`validateArgs` accepts exactly when every argument whose trimmed form starts
with `-` has the part of that trimmed form before its first `=` as an element
of the allowed-list; in particular argument lists whose members are all empty
after trimming or do not start with `-` are accepted. -/
theorem flag_matching (args allowed : List GoString) (hne : allowed ≠ [])
    (hstar : allowed ≠ ["*".toList]) :
    (validateArgs args allowed = true ↔
      ∀ a ∈ args, hasDash (TrimSpace a) = true → beforeEq (TrimSpace a) ∈ allowed) ∧
    ((∀ a ∈ args, TrimSpace a = [] ∨ hasDash (TrimSpace a) = false) →
      validateArgs args allowed = true) := by
  have hv : validateArgs args allowed = argsLoop allowed args := by
    unfold validateArgs
    have : allowed.length ≠ 0 := fun h0 => hne (List.length_eq_zero.mp h0)
    rw [if_neg (fun h => this h.1), if_neg hstar]
  rw [hv, argsLoop_iff]
  refine ⟨Iff.rfl, fun h a ha hd => ?_⟩
  rcases h a ha with h0 | h0
  · rw [h0] at hd
    simp [hasDash] at hd
  · rw [h0] at hd
    cases hd

/-- C4, witness: with allowed `["-v", "--version"]`, the argument lists `["-v"]`,
`["--version"]` and `["--version=2"]` are accepted and `["-x"]` is denied. -/
theorem flag_matching_witness :
    validateArgs ["-v".toList] gitFlags = true ∧
      validateArgs ["--version".toList] gitFlags = true ∧
      validateArgs ["--version=2".toList] gitFlags = true ∧
      validateArgs ["-x".toList] gitFlags = false ∧
      validateArgs ["push".toList] gitFlags = true :=
  ⟨rfl, rfl, rfl,
    Bool.eq_false_iff.mpr fun h =>
      absurd ((flag_matching ["-x".toList] gitFlags (by decide) (by decide)).1.mp h
        "-x".toList (by simp) rfl) (by decide),
    (flag_matching ["push".toList] gitFlags (by decide) (by decide)).2 (by decide)⟩

/-! ## C5: a positional argument is not checked -/

/-- C5, counterexample: with whitelist `{"git": ["-v", "--version"]}` the call
`Validate("git push")` does not return false; it returns true. -/
theorem validate_git_push_not_denied :
    gitValidator.Validate plainHost "git push".toList = .ok true ∧
      gitValidator.Validate plainHost "git push".toList ≠ .ok false := by
  have e : gitValidator.Validate plainHost "git push".toList = .ok true := rfl
  refine ⟨e, fun h => ?_⟩
  rw [e] at h
  cases h

/-- C5, amended. With whitelist `{"git": ["-v", "--version"]}`, whatever the
substitution setting, `Validate("git push")` returns true without error: `push`
does not start with `-`, so the flag check skips it. -/
theorem validate_git_push_allowed (h : Host) :
    gitValidator.Validate h "git push".toList = .ok true := by
  rfl

/-! ## C6: the wildcard rule -/

theorem Parse_nil (exec : Exec) (pb : Bool) : Parse exec pb [] = .ok [] := rfl

/-- Unfolding of `Validate` once the trimmed line is known to tokenize to a
non-empty sequence whose base command is in the whitelist. -/
theorem validate_of_tokens (h : Host) (v : Validator) (line a0 : GoString)
    (rest whiteArgs : List GoString)
    (hp : Parse h.ExecSh h.ParseBacktick (TrimSpace line) = .ok (a0 :: rest))
    (hl : v.config.Commands.lookup (ToLower h.lowerTable a0) = some whiteArgs) :
    v.Validate h line = .ok (validateArgs rest whiteArgs) := by
  have h0 : TrimSpace line ≠ [] := by
    intro h0
    rw [h0, Parse_nil] at hp
    cases hp
  unfold Validator.Validate
  simp only [h0, hp, hl, if_false]

/-- C6, counterexample: with whitelist `{"ls": ["*"]}` the line `ls \ ` tokenizes
to `ls` followed by one token (a space), yet `Validate` returns an error on it:
trimming removes the escaped space and leaves an unclosed escape. -/
theorem wildcard_counterexample :
    Parse plainHost.ExecSh plainHost.ParseBacktick lsEscapedSpace =
        .ok ["ls".toList, [Char.ofNat 32]] ∧
      lsValidator.config.Commands.lookup (ToLower plainHost.lowerTable "ls".toList) =
        some ["*".toList] ∧
      lsValidator.Validate plainHost lsEscapedSpace =
        .error (.parse (.unclosed "escape sequence")) ∧
      lsValidator.Validate plainHost lsEscapedSpace ≠ .ok true := by
  have e : lsValidator.Validate plainHost lsEscapedSpace =
      .error (.parse (.unclosed "escape sequence")) := rfl
  refine ⟨rfl, rfl, e, fun h => ?_⟩
  rw [e] at h
  cases h

/-- C6, amended. When the whitelist maps a base command to exactly `["*"]`,
`Validate` returns true without error for every line whose whitespace-trimmed
form tokenizes successfully to a non-empty token sequence whose lowercased
first token is that command, whatever the remaining tokens are. -/
theorem wildcard_accepts (h : Host) (v : Validator) (line c a0 : GoString)
    (rest : List GoString)
    (hc : v.config.Commands.lookup c = some ["*".toList])
    (hp : Parse h.ExecSh h.ParseBacktick (TrimSpace line) = .ok (a0 :: rest))
    (h0 : ToLower h.lowerTable a0 = c) :
    v.Validate h line = .ok true := by
  rw [validate_of_tokens h v line a0 rest ["*".toList] hp (by rw [h0, hc])]
  unfold validateArgs
  simp

/-- C6, witness: with whitelist `{"ls": ["*"]}`, `Validate("ls -la /etc")` is true. -/
theorem wildcard_accepts_witness :
    lsValidator.Validate plainHost "ls -la /etc".toList = .ok true :=
  wildcard_accepts plainHost lsValidator "ls -la /etc".toList "ls".toList "ls".toList
    ["-la".toList, "/etc".toList] rfl rfl rfl

/-! ## C7: the empty allow-list -/

/-- C7, counterexample: with whitelist `{"echo": []}` the line `echo hello \ `
tokenizes to `echo` followed by two arguments, yet `Validate` does not return
false on it: it returns the tokenizer's unclosed-escape error. -/
theorem empty_allow_list_counterexample :
    Parse plainHost.ExecSh plainHost.ParseBacktick echoEscapedSpace =
        .ok ["echo".toList, "hello".toList, [Char.ofNat 32]] ∧
      echoValidator.config.Commands.lookup (ToLower plainHost.lowerTable "echo".toList) =
        some [] ∧
      echoValidator.Validate plainHost echoEscapedSpace =
        .error (.parse (.unclosed "escape sequence")) ∧
      echoValidator.Validate plainHost echoEscapedSpace ≠ .ok false := by
  have e : echoValidator.Validate plainHost echoEscapedSpace =
      .error (.parse (.unclosed "escape sequence")) := rfl
  refine ⟨rfl, rfl, e, fun h => ?_⟩
  rw [e] at h
  cases h

/-- C7, amended. When the whitelist maps a base command to the empty list,
`Validate` returns true for every line whose whitespace-trimmed form tokenizes
to that command alone, and returns false for every line whose
whitespace-trimmed form tokenizes to that command followed by two or more
arguments. -/
theorem empty_allow_list (h : Host) (v : Validator) (line c a0 : GoString)
    (rest : List GoString)
    (hc : v.config.Commands.lookup c = some [])
    (hp : Parse h.ExecSh h.ParseBacktick (TrimSpace line) = .ok (a0 :: rest))
    (h0 : ToLower h.lowerTable a0 = c) :
    (rest = [] → v.Validate h line = .ok true) ∧
      (2 ≤ rest.length → v.Validate h line = .ok false) := by
  rw [validate_of_tokens h v line a0 rest [] hp (by rw [h0, hc])]
  unfold validateArgs
  refine ⟨?_, ?_⟩
  · rintro rfl
    simp [argsLoop]
  · intro h2
    have : rest.length > 1 := h2
    simp [this]

/-- C7, witness: with whitelist `{"echo": []}`, `Validate("echo")` is true and
`Validate("echo hello world")` is false. -/
theorem empty_allow_list_witness :
    echoValidator.Validate plainHost "echo".toList = .ok true ∧
      echoValidator.Validate plainHost "echo hello world".toList = .ok false :=
  ⟨(empty_allow_list plainHost echoValidator "echo".toList "echo".toList "echo".toList []
      rfl rfl rfl).1 rfl,
    (empty_allow_list plainHost echoValidator "echo hello world".toList "echo".toList
      "echo".toList ["hello".toList, "world".toList] rfl rfl rfl).2 (by decide)⟩

/-! ## C8: plain input is split at whitespace -/

theorem special_facts {r : Char} (h : isSpecial r = false) :
    r ≠ cBackslash ∧ r ≠ cSingle ∧ r ≠ cDouble ∧ r ≠ cBacktick ∧ r ≠ cDollar ∧
      isMeta r = false := by
  have := h
  simp only [isSpecial, Bool.or_eq_false_iff, decide_eq_false_iff_not] at this
  tauto

theorem isSpace_not_special {r : Char} (h : isSpace r = true) : isSpecial r = false := by
  simp only [isSpace, Bool.or_eq_true, decide_eq_true_eq] at h
  rcases h with ((rfl | rfl) | rfl) | rfl <;> decide

/-- In the Normal state a rune that is not special is either a separator of
tokens (whitespace) or appended to the current token. -/
theorem body_plain (exec : Exec) (p : Parser) (i : Nat) (r : Char) (look : Option Char)
    (s : Scan) (h : isSpecial r = false) (hs : s.state = StateNormal) :
    body exec p i r look s = .next (if isSpace r = true then s.flush else s.write r) := by
  obtain ⟨h1, h2, h3, h4, h5, h6⟩ := special_facts h
  unfold body
  by_cases hsp : isSpace r = true
  · simp [hs, hsp]
  · simp [hs, hsp, h1, h2, h3, h4, h5, h6]

/-- Scanning a run of non-special runes from the Normal state stays in the
Normal state and touches neither the substitution buffer nor the position. -/
theorem loop_plain_append (exec : Exec) (p : Parser) (rest : List Char) :
    ∀ (a : List Char) (i : Nat) (s : Scan), (∀ c ∈ a, isSpecial c = false) →
    s.state = StateNormal →
    ∃ s1, s1.state = StateNormal ∧ s1.backtickCmdBuf = s.backtickCmdBuf ∧ s1.pos = s.pos ∧
      loop exec p i (a ++ rest) s = loop exec p (i + a.length) rest s1 := by
  intro a
  induction a with
  | nil => intro i s _ hs; exact ⟨s, hs, rfl, rfl, by simp⟩
  | cons r a ih =>
    intro i s ha hs
    have hb := body_plain exec p i r (a ++ rest).head? s (ha r (by simp)) hs
    have h1 : (if isSpace r = true then s.flush else s.write r).state = StateNormal := by
      split
      · rw [flush_state, hs]
      · simpa [Scan.write] using hs
    have h2 : (if isSpace r = true then s.flush else s.write r).backtickCmdBuf =
        s.backtickCmdBuf := by
      split
      · rw [flush_cmd]
      · simp [Scan.write]
    have h3 : (if isSpace r = true then s.flush else s.write r).pos = s.pos := by
      split
      · rw [flush_pos]
      · simp [Scan.write]
    obtain ⟨s2, g1, g2, g3, g4⟩ := ih (i + 1) _ (fun c hc => ha c (by simp [hc])) h1
    refine ⟨s2, g1, by rw [g2, h2], by rw [g3, h3], ?_⟩
    have e : i + (r :: a).length = i + 1 + a.length := by simp only [List.length_cons]; omega
    rw [e, ← g4]
    show loop exec p i (r :: (a ++ rest)) s = _
    simp only [loop, hb]

theorem finalArgs_flush (s : Scan) : finalArgs s.flush = finalArgs s := by
  unfold finalArgs Scan.flush
  by_cases h : s.currentArgBuf.length > 0 <;> simp [h]

/-- The tokens a run of non-special runes yields, given the locals before it. -/
theorem loop_plain_tokens (exec : Exec) (p : Parser) :
    ∀ (l : List Char) (i : Nat) (s : Scan), (∀ c ∈ l, isSpecial c = false) →
    s.state = StateNormal →
    ∃ s1, loop exec p i l s = .ok s1 ∧ s1.state = StateNormal ∧ s1.pos = s.pos ∧
      finalArgs s1 = s.args ++
        (((l.splitOnP isSpace).modifyHead (fun w => s.currentArgBuf ++ w)).filter
          (fun w => !w.isEmpty)) := by
  intro l
  induction l with
  | nil =>
    intro i s _ hs
    refine ⟨s, rfl, hs, rfl, ?_⟩
    unfold finalArgs
    cases hb : s.currentArgBuf with
    | nil => simp
    | cons c cs => simp
  | cons r l ih =>
    intro i s hl hs
    have hb := body_plain exec p i r l.head? s (hl r (by simp)) hs
    have hl1 : ∀ c ∈ l, isSpecial c = false := fun c hc => hl c (by simp [hc])
    obtain ⟨w0, ws, hsplit⟩ : ∃ w0 ws, l.splitOnP isSpace = w0 :: ws := by
      cases hh : l.splitOnP isSpace with
      | nil => exact absurd hh (List.splitOnP_ne_nil _ _)
      | cons w0 ws => exact ⟨w0, ws, rfl⟩
    by_cases hsp : isSpace r = true
    · rw [if_pos hsp] at hb
      obtain ⟨s1, g1, g2, g3, g4⟩ := ih (i + 1) s.flush hl1 (by rw [flush_state, hs])
      refine ⟨s1, by simp only [loop, hb, g1], g2, by rw [g3, flush_pos], ?_⟩
      rw [g4, List.splitOnP_cons, if_pos hsp, hsplit]
      obtain ⟨args, buf, cmd, st, pos⟩ := s
      unfold Scan.flush
      cases buf with
      | nil => simp
      | cons c cs => simp
    · rw [if_neg hsp] at hb
      obtain ⟨s1, g1, g2, g3, g4⟩ := ih (i + 1) (s.write r) hl1 (by simpa [Scan.write] using hs)
      refine ⟨s1, by simp only [loop, hb, g1], g2, by rw [g3]; simp [Scan.write], ?_⟩
      rw [g4, List.splitOnP_cons, if_neg hsp, hsplit]
      simp [Scan.write]

/-- C8. For every input made only of whitespace (space, tab, CR, LF) and of
characters other than the backslash, the quotes, the backtick, `$` and
`; & | < >`, `Parser.Parse` succeeds and returns exactly the whitespace split
of the input (maximal runs of non-whitespace runes, in order), with
`Position` `-1`. -/
theorem parse_plain_is_whitespace_split (exec : Exec) (p : Parser) (line : GoString)
    (h : ∀ c ∈ line, isSpace c = true ∨ isSpecial c = false) :
    Parser.Parse exec p line = (.ok (fields line), { p with Position := -1 }) := by
  have h1 : ∀ c ∈ line, isSpecial c = false := fun c hc =>
    (h c hc).elim isSpace_not_special id
  obtain ⟨s1, g1, g2, g3, g4⟩ := loop_plain_tokens exec p line 0 Scan.init h1 rfl
  obtain ⟨w0, ws, hsplit⟩ : ∃ w0 ws, line.splitOnP isSpace = w0 :: ws := by
    cases hh : line.splitOnP isSpace with
    | nil => exact absurd hh (List.splitOnP_ne_nil _ _)
    | cons w0 ws => exact ⟨w0, ws, rfl⟩
  have g5 : finalArgs s1 = fields line := by
    rw [g4, hsplit]
    simp [fields, hsplit, Scan.init]
  unfold Parser.Parse
  rw [g1]
  simp only
  unfold finish
  rw [show (if s1.currentArgBuf.length > 0 then s1.args ++ [s1.currentArgBuf] else s1.args) =
    finalArgs s1 from rfl, g5, g3]
  simp [g2, Scan.init]

/-- C8, witness: a line of words separated by runs of spaces, tabs and
newlines. -/
theorem parse_plain_is_whitespace_split_witness :
    Parser.Parse noExec (NewParser false) "  git \t log\n -n=3 ".toList =
      (.ok ["git".toList, "log".toList, "-n=3".toList], { NewParser false with Position := -1 }) :=
  parse_plain_is_whitespace_split noExec (NewParser false) "  git \t log\n -n=3 ".toList
    (by decide)

/-! ## C9: single quotes -/

/-- Inside single quotes every rune other than the quote is appended as is. -/
theorem loop_single_quote (exec : Exec) (p : Parser) (rest : List Char) :
    ∀ (t : List Char) (i : Nat) (s : Scan), (∀ c ∈ t, c ≠ cSingle) →
    s.state = StateSingleQuote →
    loop exec p i (t ++ rest) s =
      loop exec p (i + t.length) rest { s with currentArgBuf := s.currentArgBuf ++ t } := by
  intro t
  induction t with
  | nil => intro i s _ _; simp
  | cons r t ih =>
    intro i s ht hs
    have hr : r ≠ cSingle := ht r (by simp)
    have hb : body exec p i r (t ++ rest).head? s = .next (s.write r) := by
      unfold body
      simp [hs, hr]
    have e : i + (r :: t).length = i + 1 + t.length := by simp only [List.length_cons]; omega
    show loop exec p i (r :: (t ++ rest)) s = _
    simp only [loop, hb]
    rw [ih (i + 1) (s.write r) (fun c hc => ht c (by simp [hc])) (by simpa [Scan.write] using hs),
      e]
    simp [Scan.write]

/-- What `Parser.Parse` returns on a single-quoted text without a quote inside. -/
theorem Parse_single_quoted (exec : Exec) (p : Parser) (t : GoString)
    (ht : ∀ c ∈ t, c ≠ cSingle) :
    Parser.Parse exec p (cSingle :: t ++ [cSingle]) =
      (.ok (if t.length > 0 then [t] else []), { p with Position := -1 }) := by
  have hb0 : body exec p 0 cSingle (t ++ [cSingle]).head? Scan.init =
      .next { Scan.init with state := StateSingleQuote } := by
    rfl
  have hl : loop exec p 0 (cSingle :: t ++ [cSingle]) Scan.init =
      .ok { Scan.init with currentArgBuf := t } := by
    show loop exec p 0 (cSingle :: (t ++ [cSingle])) Scan.init = _
    simp only [loop, hb0]
    rw [loop_single_quote exec p [cSingle] t 1 _ ht rfl]
    simp [loop, body, Scan.init]
  unfold Parser.Parse
  rw [hl]
  simp [finish, Scan.init]

/-- C9, counterexample: for the empty token the round trip fails; the input
made of two single quotes yields no token at all, not the one-element
sequence holding the empty token. -/
theorem single_quote_empty_counterexample :
    (∀ c ∈ ([] : GoString), c ≠ Char.ofNat 32 ∧ c ≠ cSingle ∧ c ≠ cDouble) ∧
      (Parser.Parse noExec (NewParser false) (cSingle :: [] ++ [cSingle])).1 = .ok [] ∧
      (Parser.Parse noExec (NewParser false) (cSingle :: [] ++ [cSingle])).1 ≠ .ok [[]] := by
  have e : (Parser.Parse noExec (NewParser false) (cSingle :: [] ++ [cSingle])).1 = .ok [] := rfl
  refine ⟨by simp, e, fun h => ?_⟩
  rw [e] at h
  cases h

/-- C9, amended. For every non-empty token `t` containing no space and no quote
character (single or double), `Parser.Parse` on `t` wrapped in single quotes
succeeds and returns the one-element sequence `[t]` (with `Position` `-1`),
including when `t` contains backslashes or `; & | < >`. -/
theorem single_quote_round_trip (exec : Exec) (p : Parser) (t : GoString)
    (hne : t ≠ [])
    (ht : ∀ c ∈ t, c ≠ Char.ofNat 32 ∧ c ≠ cSingle ∧ c ≠ cDouble) :
    Parser.Parse exec p (cSingle :: t ++ [cSingle]) = (.ok [t], { p with Position := -1 }) := by
  rw [Parse_single_quoted exec p t (fun c hc => (ht c hc).2.1)]
  have : t.length > 0 := List.length_pos.mpr hne
  simp [this]

/-- C9, witness: the token `a\b;c|d` wrapped in single quotes comes back
unchanged. -/
theorem single_quote_round_trip_witness :
    Parser.Parse noExec (NewParser false)
        (cSingle :: ['a', cBackslash, 'b', Char.ofNat 59, 'c', Char.ofNat 124, 'd'] ++ [cSingle]) =
      (.ok [['a', cBackslash, 'b', Char.ofNat 59, 'c', Char.ofNat 124, 'd']],
        { NewParser false with Position := -1 }) :=
  single_quote_round_trip noExec (NewParser false)
    ['a', cBackslash, 'b', Char.ofNat 59, 'c', Char.ofNat 124, 'd'] (by simp) (by decide)

/-! ## C10: unterminated spans -/

/-- A state that every rune of a text keeps is still the state at the end of
the text. -/
theorem loop_stay (exec : Exec) (p : Parser) (st : argParseState) (keeps : Char → Prop)
    (hbody : ∀ (i : Nat) (r : Char) (look : Option Char) (s : Scan), s.state = st → keeps r →
      ∃ s1, body exec p i r look s = .next s1 ∧ s1.state = st) :
    ∀ (l : List Char) (i : Nat) (s : Scan), s.state = st → (∀ c ∈ l, keeps c) →
    ∃ s1, loop exec p i l s = .ok s1 ∧ s1.state = st := by
  intro l
  induction l with
  | nil => intro i s hs _; exact ⟨s, rfl, hs⟩
  | cons r l ih =>
    intro i s hs hl
    obtain ⟨s1, hb, h1⟩ := hbody i r l.head? s hs (hl r (by simp))
    obtain ⟨s2, g1, g2⟩ := ih (i + 1) s1 h1 (fun c hc => hl c (by simp [hc]))
    exact ⟨s2, by simp only [loop, hb, g1], g2⟩

theorem stay_single (exec : Exec) (p : Parser) (i : Nat) (r : Char) (look : Option Char)
    (s : Scan) (hs : s.state = StateSingleQuote) (hr : r ≠ cSingle) :
    ∃ s1, body exec p i r look s = .next s1 ∧ s1.state = StateSingleQuote := by
  unfold body
  exact ⟨s.write r, by simp [hs, hr], by simpa [Scan.write] using hs⟩

theorem stay_double (exec : Exec) (p : Parser) (i : Nat) (r : Char) (look : Option Char)
    (s : Scan) (hs : s.state = StateDoubleQuote) (hr : r ≠ cDouble) :
    ∃ s1, body exec p i r look s = .next s1 ∧ s1.state = StateDoubleQuote := by
  unfold body
  by_cases hb : r = cBackslash
  · subst hb
    have hne : cBackslash ≠ cDouble := by decide
    cases look with
    | none => exact ⟨s.write cBackslash, by simp [hs, hne], by simpa [Scan.write] using hs⟩
    | some c =>
      exact ⟨(s.write cBackslash).write c, by simp [hs, hne], by simpa [Scan.write] using hs⟩
  · exact ⟨s.write r, by simp [hs, hr, hb], by simpa [Scan.write] using hs⟩

theorem stay_backtick (exec : Exec) (p : Parser) (i : Nat) (r : Char) (look : Option Char)
    (s : Scan) (hs : s.state = StateBacktick) (hr : r ≠ cBacktick) :
    ∃ s1, body exec p i r look s = .next s1 ∧ s1.state = StateBacktick := by
  unfold body
  exact ⟨{ s with backtickCmdBuf := s.backtickCmdBuf ++ [r] }, by simp [hs, hr], by simpa using hs⟩

theorem stay_dollar (exec : Exec) (p : Parser) (i : Nat) (r : Char) (look : Option Char)
    (s : Scan) (hs : s.state = StateDollarCommand) (hr : r ≠ cRParen) :
    ∃ s1, body exec p i r look s = .next s1 ∧ s1.state = StateDollarCommand := by
  unfold body
  exact ⟨{ s with backtickCmdBuf := s.backtickCmdBuf ++ [r] }, by simp [hs, hr], by simpa using hs⟩

theorem open_single (exec : Exec) (p : Parser) (i : Nat) (look : Option Char) (t : Scan)
    (ht : t.state = StateNormal) :
    ∃ t1, body exec p i cSingle look t = .next t1 ∧ t1.state = StateSingleQuote := by
  obtain ⟨a, b, c, st, ps⟩ := t
  simp only at ht
  subst ht
  exact ⟨_, rfl, rfl⟩

theorem open_double (exec : Exec) (p : Parser) (i : Nat) (look : Option Char) (t : Scan)
    (ht : t.state = StateNormal) :
    ∃ t1, body exec p i cDouble look t = .next t1 ∧ t1.state = StateDoubleQuote := by
  obtain ⟨a, b, c, st, ps⟩ := t
  simp only at ht
  subst ht
  exact ⟨_, rfl, rfl⟩

theorem open_escape (exec : Exec) (p : Parser) (i : Nat) (look : Option Char) (t : Scan)
    (ht : t.state = StateNormal) :
    body exec p i cBackslash look t = .next { t with state := StateEscaped } := by
  obtain ⟨a, b, c, st, ps⟩ := t
  simp only at ht
  subst ht
  rfl

theorem open_backtick (exec : Exec) (p : Parser) (hpb : p.ParseBacktick = true) (i : Nat)
    (look : Option Char) (t : Scan) (ht : t.state = StateNormal) :
    ∃ t1, body exec p i cBacktick look t = .next t1 ∧ t1.state = StateBacktick := by
  obtain ⟨a, b, c, st, ps⟩ := t
  obtain ⟨pb, pp, pd⟩ := p
  simp only at ht hpb
  subst ht hpb
  exact ⟨_, rfl, rfl⟩

theorem open_dollar (exec : Exec) (p : Parser) (hpb : p.ParseBacktick = true) (i : Nat)
    (rest : List Char) (t : Scan) (ht : t.state = StateNormal) :
    ∃ t1, body exec p i cDollar (cLParen :: rest).head? t = .next t1 ∧
      t1.state = StateDollarCommand := by
  obtain ⟨a, b, c, st, ps⟩ := t
  obtain ⟨pb, pp, pd⟩ := p
  simp only at ht hpb
  subst ht hpb
  exact ⟨_, rfl, rfl⟩

/-- When the loop ends outside the Normal state, `Parser.Parse` returns the
unclosed-span error, no token, and leaves the parser as it was. -/
theorem Parse_unclosed (exec : Exec) (p : Parser) (line : GoString) (s : Scan)
    (st : argParseState) (hl : loop exec p 0 line Scan.init = .ok s) (hs : s.state = st)
    (hst : st ≠ StateNormal) :
    Parser.Parse exec p line = (.error (.unclosed (getStateName st)), p) := by
  unfold Parser.Parse
  rw [hl]
  simp only [finish]
  rw [if_pos (by rw [hs]; exact hst), hs]

/-- After a prefix without special characters, an opening character `c` that
moves the Normal state to `st` and a text that keeps `st`, the loop ends in `st`. -/
theorem loop_open_span (exec : Exec) (p : Parser) (st : argParseState) (keeps : Char → Prop)
    (hbody : ∀ (i : Nat) (r : Char) (look : Option Char) (s : Scan), s.state = st → keeps r →
      ∃ s1, body exec p i r look s = .next s1 ∧ s1.state = st)
    (pre s : GoString) (c : Char) (hpre : ∀ c ∈ pre, isSpecial c = false)
    (hopen : ∀ (i : Nat) (t : Scan), t.state = StateNormal →
      ∃ t1, body exec p i c s.head? t = .next t1 ∧ t1.state = st)
    (hs : ∀ c ∈ s, keeps c) :
    ∃ s1, loop exec p 0 (pre ++ c :: s) Scan.init = .ok s1 ∧ s1.state = st := by
  obtain ⟨t, h1, _, _, h4⟩ := loop_plain_append exec p (c :: s) pre 0 Scan.init hpre rfl
  obtain ⟨t1, hb, g1⟩ := hopen (0 + pre.length) t h1
  obtain ⟨s1, k1, k2⟩ := loop_stay exec p st keeps hbody s (0 + pre.length + 1) t1 g1 hs
  exact ⟨s1, by rw [h4]; simp only [loop, hb, k1], k2⟩

/-- C10. After any prefix of plain characters and whitespace, `Parser.Parse`
returns the unclosed-span error, with no tokens and the parser unchanged, on
(i) a single quote followed by text without a single quote, (ii) a double
quote followed by text without a double quote, (iii) a final backslash, and,
with substitution enabled, (iv) a backtick followed by text without a
backtick and (v) `$(` followed by text without a closing parenthesis. -/
theorem unterminated_spans_fail (exec : Exec) (p : Parser) (pre s : GoString)
    (hpre : ∀ c ∈ pre, isSpace c = true ∨ isSpecial c = false) :
    ((∀ c ∈ s, c ≠ cSingle) →
      Parser.Parse exec p (pre ++ cSingle :: s) = (.error (.unclosed "single quote"), p)) ∧
    ((∀ c ∈ s, c ≠ cDouble) →
      Parser.Parse exec p (pre ++ cDouble :: s) = (.error (.unclosed "double quote"), p)) ∧
    Parser.Parse exec p (pre ++ [cBackslash]) = (.error (.unclosed "escape sequence"), p) ∧
    (p.ParseBacktick = true → (∀ c ∈ s, c ≠ cBacktick) →
      Parser.Parse exec p (pre ++ cBacktick :: s) = (.error (.unclosed "backtick"), p)) ∧
    (p.ParseBacktick = true → (∀ c ∈ s, c ≠ cRParen) →
      Parser.Parse exec p (pre ++ cDollar :: cLParen :: s) =
        (.error (.unclosed "dollar command"), p)) := by
  have h1 : ∀ c ∈ pre, isSpecial c = false := fun c hc =>
    (hpre c hc).elim isSpace_not_special id
  refine ⟨?_, ?_, ?_, ?_, ?_⟩
  · intro hs
    obtain ⟨s1, g1, g2⟩ := loop_open_span exec p StateSingleQuote (fun c => c ≠ cSingle)
      (stay_single exec p) pre s cSingle h1 (fun i t ht => open_single exec p i _ t ht) hs
    exact Parse_unclosed exec p _ s1 StateSingleQuote g1 g2 (by decide)
  · intro hs
    obtain ⟨s1, g1, g2⟩ := loop_open_span exec p StateDoubleQuote (fun c => c ≠ cDouble)
      (stay_double exec p) pre s cDouble h1 (fun i t ht => open_double exec p i _ t ht) hs
    exact Parse_unclosed exec p _ s1 StateDoubleQuote g1 g2 (by decide)
  · obtain ⟨t, k1, _, _, k4⟩ := loop_plain_append exec p [cBackslash] pre 0 Scan.init h1 rfl
    have hb := open_escape exec p (0 + pre.length) ([] : List Char).head? t k1
    exact Parse_unclosed exec p _ { t with state := StateEscaped } StateEscaped
      (by rw [k4]; simp only [loop, hb]) rfl (by decide)
  · intro hpb hs
    obtain ⟨s1, g1, g2⟩ := loop_open_span exec p StateBacktick (fun c => c ≠ cBacktick)
      (stay_backtick exec p) pre s cBacktick h1
      (fun i t ht => open_backtick exec p hpb i _ t ht) hs
    exact Parse_unclosed exec p _ s1 StateBacktick g1 g2 (by decide)
  · intro hpb hs
    obtain ⟨s1, g1, g2⟩ := loop_open_span exec p StateDollarCommand (fun c => c ≠ cRParen)
      (stay_dollar exec p) pre (cLParen :: s) cDollar h1
      (fun i t ht => open_dollar exec p hpb i s t ht)
      (by
        intro c hc
        rcases List.mem_cons.mp hc with rfl | hc
        · decide
        · exact hs c hc)
    exact Parse_unclosed exec p _ s1 StateDollarCommand g1 g2 (by decide)

/-- C10, witness: the five kinds of unterminated span after the prefix `ls `,
with substitution enabled. -/
theorem unterminated_spans_fail_witness :
    Parser.Parse noExec (NewParser true) ("ls ".toList ++ cSingle :: "a b".toList) =
        (.error (.unclosed "single quote"), NewParser true) ∧
      Parser.Parse noExec (NewParser true) ("ls ".toList ++ cDouble :: "a b".toList) =
        (.error (.unclosed "double quote"), NewParser true) ∧
      Parser.Parse noExec (NewParser true) ("ls ".toList ++ [cBackslash]) =
        (.error (.unclosed "escape sequence"), NewParser true) ∧
      Parser.Parse noExec (NewParser true) ("ls ".toList ++ cBacktick :: "a b".toList) =
        (.error (.unclosed "backtick"), NewParser true) ∧
      Parser.Parse noExec (NewParser true) ("ls ".toList ++ cDollar :: cLParen :: "a b".toList) =
        (.error (.unclosed "dollar command"), NewParser true) :=
  have h := unterminated_spans_fail noExec (NewParser true) "ls ".toList "a b".toList
    (by decide)
  ⟨h.1 (by decide), h.2.1 (by decide), h.2.2.1, h.2.2.2.1 rfl (by decide),
    h.2.2.2.2 rfl (by decide)⟩

/-! ## C11: substitution disabled -/

/-- An iteration consults the execution helper only through the call that
`bodyCall` records. -/
theorem body_congr_exec (exec1 exec2 : Exec) (p : Parser) (i : Nat) (r : Char)
    (look : Option Char) (s : Scan)
    (h : ∀ cmd dir, bodyCall p r s = some (cmd, dir) → exec1 cmd dir = exec2 cmd dir) :
    body exec1 p i r look s = body exec2 p i r look s := by
  obtain ⟨args, buf, cmd, st, pos⟩ := s
  cases st <;> simp only [body]
  · by_cases h1 : r = cBacktick <;> by_cases h2 : p.ParseBacktick = true
    · have := h cmd p.Dir (by simp [bodyCall, h1, h2])
      simp [h1, h2, this]
    · simp [h1, h2]
    · simp [h1]
    · simp [h1]
  · by_cases h1 : r = cRParen <;> by_cases h2 : p.ParseBacktick = true
    · have := h cmd p.Dir (by simp [bodyCall, h1, h2])
      simp [h1, h2, this]
    · simp [h1, h2]
    · simp [h1]
    · simp [h1]

theorem bodyCall_disabled (p : Parser) (hp : p.ParseBacktick = false) (r : Char) (s : Scan) :
    bodyCall p r s = none := by
  unfold bodyCall
  split <;> simp [hp]

theorem loop_congr_disabled (exec1 exec2 : Exec) (p : Parser) (hp : p.ParseBacktick = false) :
    ∀ (l : List Char) (i : Nat) (s : Scan), loop exec1 p i l s = loop exec2 p i l s := by
  intro l
  induction l with
  | nil => intro i s; rfl
  | cons r rest ih =>
    intro i s
    have hb := body_congr_exec exec1 exec2 p i r rest.head? s
      (fun cmd dir h => by rw [bodyCall_disabled p hp] at h; cases h)
    simp only [loop, hb]
    cases body exec2 p i r rest.head? s with
    | next s1 => exact ih (i + 1) s1
    | endLoop s1 => rfl
    | ret e => rfl

theorem execCalls_disabled (exec : Exec) (p : Parser) (hp : p.ParseBacktick = false) :
    ∀ (l : List Char) (i : Nat) (s : Scan), execCalls exec p i l s = [] := by
  intro l
  induction l with
  | nil => intro i s; rfl
  | cons r rest ih =>
    intro i s
    simp only [execCalls, bodyCall_disabled p hp, Option.toList, List.nil_append]
    cases body exec p i r rest.head? s with
    | next s1 => exact ih (i + 1) s1
    | endLoop s1 => rfl
    | ret e => rfl

/-- The tokens of a text all of whose runes, met in the Normal state, either
separate tokens (whitespace) or are appended to the current token. -/
theorem loop_inert_tokens (exec : Exec) (p : Parser) (inert : Char → Prop)
    (hbody : ∀ r, inert r → ∀ (i : Nat) (look : Option Char) (s : Scan),
      s.state = StateNormal →
      body exec p i r look s = .next (if isSpace r = true then s.flush else s.write r)) :
    ∀ (l : List Char) (i : Nat) (s : Scan), (∀ c ∈ l, inert c) →
    s.state = StateNormal →
    ∃ s1, loop exec p i l s = .ok s1 ∧ s1.state = StateNormal ∧ s1.pos = s.pos ∧
      finalArgs s1 = s.args ++
        (((l.splitOnP isSpace).modifyHead (fun w => s.currentArgBuf ++ w)).filter
          (fun w => !w.isEmpty)) := by
  intro l
  induction l with
  | nil =>
    intro i s _ hs
    refine ⟨s, rfl, hs, rfl, ?_⟩
    unfold finalArgs
    cases hb : s.currentArgBuf with
    | nil => simp
    | cons c cs => simp
  | cons r l ih =>
    intro i s hl hs
    have hb := hbody r (hl r (by simp)) i l.head? s hs
    have hl1 : ∀ c ∈ l, inert c := fun c hc => hl c (by simp [hc])
    obtain ⟨w0, ws, hsplit⟩ : ∃ w0 ws, l.splitOnP isSpace = w0 :: ws := by
      cases hh : l.splitOnP isSpace with
      | nil => exact absurd hh (List.splitOnP_ne_nil _ _)
      | cons w0 ws => exact ⟨w0, ws, rfl⟩
    by_cases hsp : isSpace r = true
    · rw [if_pos hsp] at hb
      obtain ⟨s1, g1, g2, g3, g4⟩ := ih (i + 1) s.flush hl1 (by rw [flush_state, hs])
      refine ⟨s1, by simp only [loop, hb, g1], g2, by rw [g3, flush_pos], ?_⟩
      rw [g4, List.splitOnP_cons, if_pos hsp, hsplit]
      obtain ⟨args, buf, cmd, st, pos⟩ := s
      unfold Scan.flush
      cases buf with
      | nil => simp
      | cons c cs => simp
    · rw [if_neg hsp] at hb
      obtain ⟨s1, g1, g2, g3, g4⟩ := ih (i + 1) (s.write r) hl1 (by simpa [Scan.write] using hs)
      refine ⟨s1, by simp only [loop, hb, g1], g2, by rw [g3]; simp [Scan.write], ?_⟩
      rw [g4, List.splitOnP_cons, if_neg hsp, hsplit]
      simp [Scan.write]

/-- On such a text `Parser.Parse` returns the whitespace split. -/
theorem Parse_inert (exec : Exec) (p : Parser) (inert : Char → Prop)
    (hbody : ∀ r, inert r → ∀ (i : Nat) (look : Option Char) (s : Scan),
      s.state = StateNormal →
      body exec p i r look s = .next (if isSpace r = true then s.flush else s.write r))
    (text : GoString) (h : ∀ c ∈ text, inert c) :
    Parser.Parse exec p text = (.ok (fields text), { p with Position := -1 }) := by
  obtain ⟨s1, g1, g2, g3, g4⟩ := loop_inert_tokens exec p inert hbody text 0 Scan.init h rfl
  obtain ⟨w0, ws, hsplit⟩ : ∃ w0 ws, text.splitOnP isSpace = w0 :: ws := by
    cases hh : text.splitOnP isSpace with
    | nil => exact absurd hh (List.splitOnP_ne_nil _ _)
    | cons w0 ws => exact ⟨w0, ws, rfl⟩
  have g5 : finalArgs s1 = fields text := by
    rw [g4, hsplit]
    simp [fields, hsplit, Scan.init]
  unfold Parser.Parse
  rw [g1]
  simp only
  unfold finish
  rw [show (if s1.currentArgBuf.length > 0 then s1.args ++ [s1.currentArgBuf] else s1.args) =
    finalArgs s1 from rfl, g5, g3]
  simp [g2, Scan.init]

/-- With substitution disabled, a rune other than the backslash, the quotes
and `; & | < >` separates tokens or is appended to the current token. -/
theorem body_disabled (exec : Exec) (p : Parser) (hp : p.ParseBacktick = false) (r : Char)
    (h : isQuoting r = false) (i : Nat) (look : Option Char) (s : Scan)
    (hs : s.state = StateNormal) :
    body exec p i r look s = .next (if isSpace r = true then s.flush else s.write r) := by
  have h0 := h
  simp only [isQuoting, Bool.or_eq_false_iff, decide_eq_false_iff_not] at h0
  obtain ⟨⟨⟨h1, h2⟩, h3⟩, h4⟩ := h0
  unfold body
  rw [hs]
  simp only
  by_cases hsp : isSpace r = true
  · simp only [hsp, if_true]
  · simp only [hsp, if_false, h1, h2, h3]
    by_cases h5 : r = cBacktick
    · rw [if_pos h5, hp]
      simp
    · rw [if_neg h5]
      by_cases h6 : r = cDollar
      · rw [if_pos h6, hp]
        simp
      · rw [if_neg h6, h4]
        simp

/-- C11. With substitution disabled (`ParseBacktick` false), `Parser.Parse`
makes no call to the execution helper on any input and its result does not
depend on the helper; in the Normal state the backtick, `$`, `(` and `)` are
appended to the current token like ordinary characters, so any input without
backslash, quotes and `; & | < >` is simply split at whitespace. -/
theorem no_substitution_when_disabled (exec : Exec) (p : Parser)
    (hp : p.ParseBacktick = false) :
    (∀ text : GoString, execCalls exec p 0 text Scan.init = []) ∧
    (∀ (exec2 : Exec) (text : GoString),
      Parser.Parse exec p text = Parser.Parse exec2 p text) ∧
    (∀ (i : Nat) (r : Char) (look : Option Char) (s : Scan), s.state = StateNormal →
      r = cBacktick ∨ r = cDollar ∨ r = cLParen ∨ r = cRParen →
      body exec p i r look s = .next (s.write r)) ∧
    (∀ text : GoString, (∀ c ∈ text, isQuoting c = false) →
      Parser.Parse exec p text = (.ok (fields text), { p with Position := -1 })) := by
  refine ⟨fun text => execCalls_disabled exec p hp text 0 Scan.init, ?_, ?_, ?_⟩
  · intro exec2 text
    unfold Parser.Parse
    rw [loop_congr_disabled exec exec2 p hp]
  · intro i r look s hs hr
    have hq : isQuoting r = false ∧ isSpace r = false := by
      rcases hr with rfl | rfl | rfl | rfl <;> exact ⟨by decide, by decide⟩
    rw [body_disabled exec p hp r hq.1 i look s hs, hq.2]
    simp
  · intro text h
    exact Parse_inert exec p (fun c => isQuoting c = false)
      (fun r hr => body_disabled exec p hp r hr) text h

/-- C11, witness: with substitution disabled the backticked `echo hi` tokenizes
to two tokens that keep the backticks, and `$(echo hi)` to two tokens that keep
`$(` and `)`; the helper is never called. -/
theorem no_substitution_when_disabled_witness :
    Parser.Parse echoExec (NewParser false) (cBacktick :: "echo hi".toList ++ [cBacktick]) =
        (.ok [cBacktick :: "echo".toList, "hi".toList ++ [cBacktick]],
          { NewParser false with Position := -1 }) ∧
      Parser.Parse echoExec (NewParser false) "$(echo hi)".toList =
        (.ok ["$(echo".toList, "hi)".toList], { NewParser false with Position := -1 }) ∧
      execCalls echoExec (NewParser false) 0 "$(echo hi)".toList Scan.init = [] :=
  have h := no_substitution_when_disabled echoExec (NewParser false) rfl
  ⟨h.2.2.2 _ (by decide), h.2.2.2 _ (by decide), h.1 _⟩

/-! ## C12: parsing the rejoined tokens -/

theorem splitOnP_mem (q : Char → Bool) : ∀ (l : List Char) (w : List Char),
    w ∈ l.splitOnP q → ∀ c ∈ w, q c = false ∧ c ∈ l := by
  intro l
  induction l with
  | nil =>
    intro w hw c hc
    simp only [List.splitOnP_nil, List.mem_singleton] at hw
    subst hw
    cases hc
  | cons x xs ih =>
    intro w hw c hc
    rw [List.splitOnP_cons] at hw
    by_cases hx : q x = true
    · rw [if_pos hx] at hw
      rcases List.mem_cons.mp hw with rfl | hw
      · cases hc
      · exact ⟨(ih w hw c hc).1, List.mem_cons_of_mem _ (ih w hw c hc).2⟩
    · rw [if_neg hx] at hw
      cases hsplit : xs.splitOnP q with
      | nil => exact absurd hsplit (List.splitOnP_ne_nil _ _)
      | cons w0 ws =>
        rw [hsplit, List.modifyHead_cons] at hw
        rcases List.mem_cons.mp hw with rfl | hw
        · rcases List.mem_cons.mp hc with rfl | hc
          · exact ⟨by simpa using hx, by simp⟩
          · have := ih w0 (by rw [hsplit]; simp) c hc
            exact ⟨this.1, List.mem_cons_of_mem _ this.2⟩
        · have := ih w (by rw [hsplit]; exact List.mem_cons_of_mem _ hw) c hc
          exact ⟨this.1, List.mem_cons_of_mem _ this.2⟩

/-- The pieces of the whitespace split are non-empty, free of whitespace, and
made of runes of the text. -/
theorem fields_mem (text : GoString) (w : GoString) (hw : w ∈ fields text) :
    w ≠ [] ∧ ∀ c ∈ w, isSpace c = false ∧ c ∈ text := by
  unfold fields at hw
  rw [List.mem_filter] at hw
  refine ⟨?_, splitOnP_mem isSpace text w hw.1⟩
  intro h0
  rw [h0] at hw
  simp at hw

/-- The whitespace split of words joined by single spaces gives the words back. -/
theorem fields_joinSpaces : ∀ ws : List GoString,
    (∀ w ∈ ws, w ≠ [] ∧ ∀ c ∈ w, isSpace c = false) → fields (joinSpaces ws) = ws := by
  intro ws
  induction ws with
  | nil => intro _; rfl
  | cons w rest ih =>
    intro h
    have hw := h w (by simp)
    have hwn : ∀ c ∈ w, ¬(isSpace c = true) := fun c hc => by simp [(hw.2 c hc)]
    cases rest with
    | nil =>
      have e : joinSpaces [w] = w := by simp [joinSpaces, List.intercalate]
      rw [e]
      unfold fields
      rw [List.splitOnP_eq_single isSpace w hwn]
      cases w with
      | nil => exact absurd rfl hw.1
      | cons c cs => simp
    | cons w1 rest1 =>
      have e : joinSpaces (w :: w1 :: rest1) =
          w ++ Char.ofNat 32 :: joinSpaces (w1 :: rest1) := by
        simp [joinSpaces, List.intercalate]
      have ih1 := ih (fun x hx => h x (List.mem_cons_of_mem _ hx))
      rw [e]
      unfold fields at ih1 ⊢
      rw [List.splitOnP_first isSpace w hwn (Char.ofNat 32) (by decide)]
      cases w with
      | nil => exact absurd rfl hw.1
      | cons c cs =>
        simp only [List.filter_cons, List.isEmpty_cons, Bool.not_false, if_true]
        rw [ih1]

theorem mem_joinSpaces : ∀ (ws : List GoString) (c : Char), c ∈ joinSpaces ws →
    c = Char.ofNat 32 ∨ ∃ w ∈ ws, c ∈ w := by
  intro ws
  induction ws with
  | nil => intro c hc; simp [joinSpaces, List.intercalate] at hc
  | cons w rest ih =>
    intro c hc
    cases rest with
    | nil =>
      have e : joinSpaces [w] = w := by simp [joinSpaces, List.intercalate]
      rw [e] at hc
      exact Or.inr ⟨w, by simp, hc⟩
    | cons w1 rest1 =>
      have e : joinSpaces (w :: w1 :: rest1) =
          w ++ Char.ofNat 32 :: joinSpaces (w1 :: rest1) := by
        simp [joinSpaces, List.intercalate]
      rw [e] at hc
      rcases List.mem_append.mp hc with hc | hc
      · exact Or.inr ⟨w, by simp, hc⟩
      · rcases List.mem_cons.mp hc with rfl | hc
        · exact Or.inl rfl
        · rcases ih c hc with h1 | ⟨x, hx, hcx⟩
          · exact Or.inl h1
          · exact Or.inr ⟨x, List.mem_cons_of_mem _ hx, hcx⟩

/-- On a text without special characters `Parser.Parse` returns the
whitespace split. -/
theorem Parse_plain (exec : Exec) (p : Parser) (text : GoString)
    (h : ∀ c ∈ text, isSpecial c = false) :
    Parser.Parse exec p text = (.ok (fields text), { p with Position := -1 }) :=
  Parse_inert exec p (fun c => isSpecial c = false)
    (fun r hr i look s hs => body_plain exec p i r look s hr hs) text h

/-- C12. For every input made only of whitespace and of characters other than
the backslash, the quotes, the backtick, `$` and `; & | < >`, `Parser.Parse`
succeeds with some tokens, and parsing those tokens joined by single spaces
yields the same tokens. -/
theorem parse_rejoined_tokens (exec : Exec) (p : Parser) (text : GoString)
    (h : ∀ c ∈ text, isSpace c = true ∨ isSpecial c = false) :
    ∃ toks, (Parser.Parse exec p text).1 = .ok toks ∧
      (Parser.Parse exec p (joinSpaces toks)).1 = .ok toks := by
  have h1 : ∀ c ∈ text, isSpecial c = false := fun c hc =>
    (h c hc).elim isSpace_not_special id
  refine ⟨fields text, by rw [Parse_plain exec p text h1], ?_⟩
  have h2 : ∀ c ∈ joinSpaces (fields text), isSpecial c = false := by
    intro c hc
    rcases mem_joinSpaces _ c hc with rfl | ⟨w, hw, hcw⟩
    · decide
    · exact h1 c ((fields_mem text w hw).2 c hcw).2
  rw [Parse_plain exec p _ h2, fields_joinSpaces]
  intro w hw
  exact ⟨(fields_mem text w hw).1, fun c hc => ((fields_mem text w hw).2 c hc).1⟩

/-- C12, witness: a line with runs of whitespace; its tokens rejoined are
`git log -n=3`, which tokenizes to the same three tokens. -/
theorem parse_rejoined_tokens_witness :
    (Parser.Parse noExec (NewParser false) "  git \t log\n -n=3 ".toList).1 =
        .ok ["git".toList, "log".toList, "-n=3".toList] ∧
      joinSpaces ["git".toList, "log".toList, "-n=3".toList] = "git log -n=3".toList ∧
      ∃ toks, (Parser.Parse noExec (NewParser false) "  git \t log\n -n=3 ".toList).1 =
          .ok toks ∧
        (Parser.Parse noExec (NewParser false) (joinSpaces toks)).1 = .ok toks :=
  ⟨rfl, rfl,
    parse_rejoined_tokens noExec (NewParser false) "  git \t log\n -n=3 ".toList (by decide)⟩

/-! ## Runs of runes that keep the state -/

/-- A run of runes each of which, under the invariant `inv`, makes the loop
continue with the locals `step s r` without calling the execution helper, is
passed over by the loop in one go. -/
theorem run_segment (exec : Exec) (p : Parser) (inv : Scan → Prop) (step : Scan → Char → Scan)
    (good : Char → Prop)
    (hstep : ∀ r, good r → ∀ (i : Nat) (look : Option Char) (s : Scan), inv s →
      body exec p i r look s = .next (step s r) ∧ bodyCall p r s = none ∧ inv (step s r))
    (rest : List Char) :
    ∀ (seg : List Char) (i : Nat) (s : Scan), (∀ c ∈ seg, good c) → inv s →
    inv (seg.foldl step s) ∧
      loop exec p i (seg ++ rest) s = loop exec p (i + seg.length) rest (seg.foldl step s) ∧
      execCalls exec p i (seg ++ rest) s =
        execCalls exec p (i + seg.length) rest (seg.foldl step s) := by
  intro seg
  induction seg with
  | nil => intro i s _ hs; exact ⟨hs, rfl, rfl⟩
  | cons r seg ih =>
    intro i s hseg hs
    obtain ⟨hb, hc, hi⟩ := hstep r (hseg r (by simp)) i (seg ++ rest).head? s hs
    obtain ⟨g1, g2, g3⟩ := ih (i + 1) (step s r) (fun c hc => hseg c (by simp [hc])) hi
    have e : i + (r :: seg).length = i + 1 + seg.length := by
      simp only [List.length_cons]; omega
    refine ⟨g1, ?_, ?_⟩
    · rw [e, List.foldl_cons, ← g2]
      show loop exec p i (r :: (seg ++ rest)) s = _
      simp only [loop, hb]
    · rw [e, List.foldl_cons, ← g3]
      show execCalls exec p i (r :: (seg ++ rest)) s = _
      simp only [execCalls, hb, hc, Option.toList, List.nil_append]

theorem foldl_write (seg : List Char) : ∀ s : Scan,
    seg.foldl Scan.write s = { s with currentArgBuf := s.currentArgBuf ++ seg } := by
  induction seg with
  | nil => intro s; simp
  | cons r seg ih => intro s; simp [List.foldl_cons, ih, Scan.write]

theorem foldl_cmd (seg : List Char) : ∀ s : Scan,
    seg.foldl (fun t r => { t with backtickCmdBuf := t.backtickCmdBuf ++ [r] }) s =
      { s with backtickCmdBuf := s.backtickCmdBuf ++ seg } := by
  induction seg with
  | nil => intro s; simp
  | cons r seg ih => intro s; simp [List.foldl_cons, ih]

/-- A word (no whitespace, no special character) met in the Normal state is
appended to the current token. -/
theorem run_word (exec : Exec) (p : Parser) (rest seg : List Char) (i : Nat) (s : Scan)
    (hseg : ∀ c ∈ seg, isSpace c = false ∧ isSpecial c = false) (hs : s.state = StateNormal) :
    loop exec p i (seg ++ rest) s =
        loop exec p (i + seg.length) rest { s with currentArgBuf := s.currentArgBuf ++ seg } ∧
      execCalls exec p i (seg ++ rest) s =
        execCalls exec p (i + seg.length) rest
          { s with currentArgBuf := s.currentArgBuf ++ seg } := by
  have h := run_segment exec p (fun t => t.state = StateNormal) Scan.write
    (fun c => isSpace c = false ∧ isSpecial c = false)
    (fun r hr i look t ht => by
      refine ⟨?_, ?_, ?_⟩
      · rw [body_plain exec p i r look t hr.2 ht, hr.1]
        simp
      · simp [bodyCall, ht]
      · simpa [Scan.write] using ht) rest seg i s hseg hs
  rw [foldl_write] at h
  exact h.2

/-- Inside double quotes a run without double quote and backslash is appended
to the current token. -/
theorem run_double (exec : Exec) (p : Parser) (rest seg : List Char) (i : Nat) (s : Scan)
    (hseg : ∀ c ∈ seg, c ≠ cDouble ∧ c ≠ cBackslash) (hs : s.state = StateDoubleQuote) :
    loop exec p i (seg ++ rest) s =
        loop exec p (i + seg.length) rest { s with currentArgBuf := s.currentArgBuf ++ seg } ∧
      execCalls exec p i (seg ++ rest) s =
        execCalls exec p (i + seg.length) rest
          { s with currentArgBuf := s.currentArgBuf ++ seg } := by
  have h := run_segment exec p (fun t => t.state = StateDoubleQuote) Scan.write
    (fun c => c ≠ cDouble ∧ c ≠ cBackslash)
    (fun r hr i look t ht => by
      refine ⟨?_, ?_, ?_⟩
      · unfold body
        simp [ht, hr.1, hr.2]
      · simp [bodyCall, ht]
      · simpa [Scan.write] using ht) rest seg i s hseg hs
  rw [foldl_write] at h
  exact h.2

/-- Inside backticks a run without backtick is collected in the substitution
buffer. -/
theorem run_backtick (exec : Exec) (p : Parser) (rest seg : List Char) (i : Nat) (s : Scan)
    (hseg : ∀ c ∈ seg, c ≠ cBacktick) (hs : s.state = StateBacktick) :
    loop exec p i (seg ++ rest) s =
        loop exec p (i + seg.length) rest
          { s with backtickCmdBuf := s.backtickCmdBuf ++ seg } ∧
      execCalls exec p i (seg ++ rest) s =
        execCalls exec p (i + seg.length) rest
          { s with backtickCmdBuf := s.backtickCmdBuf ++ seg } := by
  have h := run_segment exec p (fun t => t.state = StateBacktick)
    (fun t r => { t with backtickCmdBuf := t.backtickCmdBuf ++ [r] })
    (fun c => c ≠ cBacktick)
    (fun r hr i look t ht => by
      refine ⟨?_, ?_, ?_⟩
      · unfold body
        simp [ht, hr]
      · simp [bodyCall, ht, hr]
      · simpa using ht) rest seg i s hseg hs
  rw [foldl_cmd] at h
  exact h.2

/-- Inside `$(` a run without closing parenthesis is collected in the
substitution buffer. -/
theorem run_dollar (exec : Exec) (p : Parser) (rest seg : List Char) (i : Nat) (s : Scan)
    (hseg : ∀ c ∈ seg, c ≠ cRParen) (hs : s.state = StateDollarCommand) :
    loop exec p i (seg ++ rest) s =
        loop exec p (i + seg.length) rest
          { s with backtickCmdBuf := s.backtickCmdBuf ++ seg } ∧
      execCalls exec p i (seg ++ rest) s =
        execCalls exec p (i + seg.length) rest
          { s with backtickCmdBuf := s.backtickCmdBuf ++ seg } := by
  have h := run_segment exec p (fun t => t.state = StateDollarCommand)
    (fun t r => { t with backtickCmdBuf := t.backtickCmdBuf ++ [r] })
    (fun c => c ≠ cRParen)
    (fun r hr i look t ht => by
      refine ⟨?_, ?_, ?_⟩
      · unfold body
        simp [ht, hr]
      · simp [bodyCall, ht, hr]
      · simpa using ht) rest seg i s hseg hs
  rw [foldl_cmd] at h
  exact h.2

/-! ## Single iterations on explicit locals -/

theorem bodyCall_normal (p : Parser) (r : Char) (args : List GoString) (buf cmd : GoString)
    (pos : Int) : bodyCall p r ⟨args, buf, cmd, StateNormal, pos⟩ = none :=
  rfl

theorem bodyCall_escaped (p : Parser) (r : Char) (args : List GoString) (buf cmd : GoString)
    (pos : Int) : bodyCall p r ⟨args, buf, cmd, StateEscaped, pos⟩ = none :=
  rfl

theorem body_backslash_normal (exec : Exec) (p : Parser) (i : Nat) (look : Option Char)
    (args : List GoString) (buf cmd : GoString) (pos : Int) :
    body exec p i cBackslash look ⟨args, buf, cmd, StateNormal, pos⟩ =
      .next ⟨args, buf, cmd, StateEscaped, pos⟩ :=
  rfl

theorem body_escaped (exec : Exec) (p : Parser) (i : Nat) (c : Char) (look : Option Char)
    (args : List GoString) (buf cmd : GoString) (pos : Int) :
    body exec p i c look ⟨args, buf, cmd, StateEscaped, pos⟩ =
      .next ⟨args, buf ++ [c], cmd, StateNormal, pos⟩ :=
  rfl

theorem body_open_backtick (exec : Exec) (p : Parser) (hp : p.ParseBacktick = true) (i : Nat)
    (look : Option Char) (args : List GoString) (buf cmd : GoString) (pos : Int) :
    body exec p i cBacktick look ⟨args, buf, cmd, StateNormal, pos⟩ =
      .next ⟨args, buf, cmd, StateBacktick, pos⟩ := by
  obtain ⟨pb, pp, pd⟩ := p
  simp only at hp
  subst hp
  rfl

theorem body_close_backtick (exec : Exec) (p : Parser) (hp : p.ParseBacktick = true) (i : Nat)
    (look : Option Char) (args : List GoString) (buf cmd : GoString) (pos : Int) :
    body exec p i cBacktick look ⟨args, buf, cmd, StateBacktick, pos⟩ =
      (match exec cmd p.Dir with
       | .error e => .ret (.backtickFailed e)
       | .ok out => .next ⟨args, buf ++ out, [], StateNormal, pos⟩) := by
  obtain ⟨pb, pp, pd⟩ := p
  simp only at hp
  subst hp
  rfl

theorem bodyCall_close_backtick (p : Parser) (hp : p.ParseBacktick = true)
    (args : List GoString) (buf cmd : GoString) (pos : Int) :
    bodyCall p cBacktick ⟨args, buf, cmd, StateBacktick, pos⟩ = some (cmd, p.Dir) := by
  obtain ⟨pb, pp, pd⟩ := p
  simp only at hp
  subst hp
  rfl

theorem bodyCall_close_dollar (p : Parser) (hp : p.ParseBacktick = true)
    (args : List GoString) (buf cmd : GoString) (pos : Int) :
    bodyCall p cRParen ⟨args, buf, cmd, StateDollarCommand, pos⟩ = some (cmd, p.Dir) := by
  obtain ⟨pb, pp, pd⟩ := p
  simp only at hp
  subst hp
  rfl

theorem body_open_dollar (exec : Exec) (p : Parser) (hp : p.ParseBacktick = true) (i : Nat)
    (args : List GoString) (buf cmd : GoString) (pos : Int) :
    body exec p i cDollar (some cLParen) ⟨args, buf, cmd, StateNormal, pos⟩ =
      .next ⟨args, buf ++ [cDollar] ++ [cLParen], cmd, StateDollarCommand, pos⟩ := by
  obtain ⟨pb, pp, pd⟩ := p
  simp only at hp
  subst hp
  rfl

theorem body_close_dollar (exec : Exec) (p : Parser) (hp : p.ParseBacktick = true) (i : Nat)
    (look : Option Char) (args : List GoString) (buf cmd : GoString) (pos : Int) :
    body exec p i cRParen look ⟨args, buf ++ [cDollar] ++ [cLParen], cmd, StateDollarCommand, pos⟩ =
      (match exec cmd p.Dir with
       | .error e => .ret (.dollarFailed e)
       | .ok out => .next ⟨args, buf ++ out, [], StateNormal, pos⟩) := by
  obtain ⟨pb, pp, pd⟩ := p
  simp only at hp
  subst hp
  have hsuf : [cDollar, cLParen] <:+ buf ++ [cDollar] ++ [cLParen] :=
    ⟨buf, by simp⟩
  have hdrop : (buf ++ [cDollar] ++ [cLParen]).dropLast.dropLast = buf := by simp
  unfold body
  simp only [if_true, hsuf, hdrop]

/-- A word at the end of the input. -/
theorem run_word_end (exec : Exec) (p : Parser) (seg : List Char) (i : Nat)
    (args : List GoString) (buf cmd : GoString) (pos : Int)
    (hseg : ∀ c ∈ seg, isSpace c = false ∧ isSpecial c = false) :
    loop exec p i seg ⟨args, buf, cmd, StateNormal, pos⟩ =
        .ok ⟨args, buf ++ seg, cmd, StateNormal, pos⟩ ∧
      execCalls exec p i seg ⟨args, buf, cmd, StateNormal, pos⟩ = [] := by
  have h := run_word exec p [] seg i ⟨args, buf, cmd, StateNormal, pos⟩ hseg rfl
  rw [List.append_nil] at h
  exact ⟨by rw [h.1]; rfl, by rw [h.2]; rfl⟩

theorem loop_cons (exec : Exec) (p : Parser) (i : Nat) (r : Char) (rest : List Char) (s : Scan) :
    loop exec p i (r :: rest) s =
      match body exec p i r rest.head? s with
      | .next s1 => loop exec p (i + 1) rest s1
      | .endLoop s1 => .ok s1
      | .ret e => .error e :=
  rfl

theorem execCalls_cons (exec : Exec) (p : Parser) (i : Nat) (r : Char) (rest : List Char)
    (s : Scan) :
    execCalls exec p i (r :: rest) s =
      (bodyCall p r s).toList ++
        match body exec p i r rest.head? s with
        | .next s1 => execCalls exec p (i + 1) rest s1
        | _ => [] :=
  rfl

/-! ## C13: a backslash inside double quotes -/

theorem body_open_double (exec : Exec) (p : Parser) (i : Nat) (look : Option Char)
    (args : List GoString) (buf cmd : GoString) (pos : Int) :
    body exec p i cDouble look ⟨args, buf, cmd, StateNormal, pos⟩ =
      .next ⟨args, buf, cmd, StateDoubleQuote, pos⟩ :=
  rfl

theorem body_close_double (exec : Exec) (p : Parser) (i : Nat) (look : Option Char)
    (args : List GoString) (buf cmd : GoString) (pos : Int) :
    body exec p i cDouble look ⟨args, buf, cmd, StateDoubleQuote, pos⟩ =
      .next ⟨args, buf, cmd, StateNormal, pos⟩ :=
  rfl

theorem body_double_backslash (exec : Exec) (p : Parser) (i : Nat) (c : Char)
    (args : List GoString) (buf cmd : GoString) (pos : Int) :
    body exec p i cBackslash (some c) ⟨args, buf, cmd, StateDoubleQuote, pos⟩ =
      .next ⟨args, buf ++ [cBackslash] ++ [c], cmd, StateDoubleQuote, pos⟩ :=
  rfl

theorem body_double_plain (exec : Exec) (p : Parser) (i : Nat) (r : Char) (look : Option Char)
    (args : List GoString) (buf cmd : GoString) (pos : Int)
    (h1 : r ≠ cDouble) (h2 : r ≠ cBackslash) :
    body exec p i r look ⟨args, buf, cmd, StateDoubleQuote, pos⟩ =
      .next ⟨args, buf ++ [r], cmd, StateDoubleQuote, pos⟩ := by
  unfold body
  simp [h1, h2, Scan.write]

/-- What the loop does on a double-quoted text with one backslash: the rune
after the backslash is written with the backslash and then examined again, so
it reaches the token twice. -/
theorem Parse_double_backslash (exec : Exec) (p : Parser) (a b : GoString) (c : Char)
    (ha : ∀ x ∈ a, x ≠ cDouble ∧ x ≠ cBackslash) (hb : ∀ x ∈ b, x ≠ cDouble ∧ x ≠ cBackslash)
    (hc : c ≠ cDouble ∧ c ≠ cBackslash) :
    Parser.Parse exec p (cDouble :: (a ++ cBackslash :: c :: (b ++ [cDouble]))) =
      (.ok [a ++ cBackslash :: c :: c :: b], { p with Position := -1 }) := by
  have hl : loop exec p 0 (cDouble :: (a ++ cBackslash :: c :: (b ++ [cDouble]))) Scan.init =
      .ok { Scan.init with currentArgBuf := a ++ cBackslash :: c :: c :: b } := by
    simp only [loop, Scan.init, body_open_double]
    rw [(run_double exec p _ a _ _ ha rfl).1]
    simp only [loop, List.head?_cons, body_double_backslash,
      body_double_plain exec p _ c _ _ _ _ _ hc.1 hc.2]
    rw [(run_double exec p _ b _ _ hb rfl).1]
    simp only [loop, body_close_double]
    simp
  unfold Parser.Parse
  rw [hl]
  simp [finish, Scan.init]

/-- C13, evaluation at the failing inputs. On the double-quoted text `x\ny`
the token returned is `x\nny`: the rune after the backslash is appended twice.
On the double-quoted text made of a backslash and a double quote the escaped
quote closes the span and the last quote opens an unclosed one. -/
theorem double_quote_backslash_not_skipped :
    Parser.Parse noExec (NewParser false) [cDouble, 'x', cBackslash, 'n', 'y', cDouble] =
        (.ok [['x', cBackslash, 'n', 'n', 'y']], { NewParser false with Position := -1 }) ∧
      Parser.Parse noExec (NewParser false) [cDouble, cBackslash, cDouble, cDouble] =
        (.error (.unclosed "double quote"), NewParser false) :=
  ⟨rfl, rfl⟩

/-! ## C14: substitution with `$(` -/

/-- What the loop does on `a ++ "$(" ++ X ++ ")" ++ b` with substitution
enabled: the opening parenthesis is examined again inside the span, so the
text handed to the execution helper starts with it. -/
theorem dollar_span_calls (exec : Exec) (p : Parser) (hp : p.ParseBacktick = true)
    (a b X : GoString) (ha : ∀ c ∈ a, isSpace c = false ∧ isSpecial c = false)
    (hb : ∀ c ∈ b, isSpace c = false ∧ isSpecial c = false) (hX : ∀ c ∈ X, c ≠ cRParen) :
    execCalls exec p 0 (a ++ cDollar :: cLParen :: (X ++ cRParen :: b)) Scan.init =
      [(cLParen :: X, p.Dir)] := by
  have hX1 : ∀ c ∈ cLParen :: X, c ≠ cRParen := by
    intro c hc
    rcases List.mem_cons.mp hc with rfl | hc
    · decide
    · exact hX c hc
  rw [(run_word exec p _ a 0 Scan.init ha rfl).2, execCalls_cons]
  simp only [Scan.init, List.head?_cons, body_open_dollar exec p hp, bodyCall_normal,
    Option.toList, List.nil_append]
  have e : cLParen :: (X ++ cRParen :: b) = (cLParen :: X) ++ cRParen :: b := rfl
  rw [e, (run_dollar exec p _ (cLParen :: X) _ _ hX1 rfl).2, execCalls_cons]
  simp only [List.nil_append, body_close_dollar exec p hp, bodyCall_close_dollar p hp,
    Option.toList]
  cases exec (cLParen :: X) p.Dir with
  | error e => rfl
  | ok out =>
    simp only [(run_word_end exec p b _ _ _ _ _ hb).2]
    rfl

/-- The locals at the end of the loop on the same input: the `$(` written on
opening the span is retracted and the output of the call that was made is
spliced into the current token. -/
theorem dollar_span_loop (exec : Exec) (p : Parser) (hp : p.ParseBacktick = true)
    (a b X : GoString) (ha : ∀ c ∈ a, isSpace c = false ∧ isSpecial c = false)
    (hb : ∀ c ∈ b, isSpace c = false ∧ isSpecial c = false) (hX : ∀ c ∈ X, c ≠ cRParen) :
    loop exec p 0 (a ++ cDollar :: cLParen :: (X ++ cRParen :: b)) Scan.init =
      match exec (cLParen :: X) p.Dir with
      | .error e => .error (.dollarFailed e)
      | .ok out => .ok ⟨[], a ++ out ++ b, [], StateNormal, -1⟩ := by
  have hX1 : ∀ c ∈ cLParen :: X, c ≠ cRParen := by
    intro c hc
    rcases List.mem_cons.mp hc with rfl | hc
    · decide
    · exact hX c hc
  rw [(run_word exec p _ a 0 Scan.init ha rfl).1, loop_cons]
  simp only [Scan.init, List.head?_cons, body_open_dollar exec p hp, List.nil_append]
  have e : cLParen :: (X ++ cRParen :: b) = (cLParen :: X) ++ cRParen :: b := rfl
  rw [e, (run_dollar exec p _ (cLParen :: X) _ _ hX1 rfl).1, loop_cons]
  simp only [List.nil_append, body_close_dollar exec p hp]
  cases exec (cLParen :: X) p.Dir with
  | error e => rfl
  | ok out => simp only [(run_word_end exec p b _ _ _ _ _ hb).1]

/-- C14, evaluation at the failing input. With substitution enabled, on
`$(echo hi)` the execution helper is called on `(echo hi`, not on `echo hi`;
a helper that runs `echo hi` and rejects anything else makes the parse fail. -/
theorem dollar_substitution_keeps_paren :
    execCalls echoExec (NewParser true) 0 "$(echo hi)".toList Scan.init =
        [("(echo hi".toList, [])] ∧
      Parser.Parse echoExec (NewParser true) "$(echo hi)".toList =
        (.error (.dollarFailed "syntax error".toList), NewParser true) :=
  ⟨rfl, rfl⟩

/-! ## C15: one argument under the empty allow-list -/

/-- C15, counterexample: under the empty allow-list the single argument `-x`
is denied, although it is the only argument. -/
theorem empty_allow_list_single_flag_counterexample :
    (["-x".toList] : List GoString).length = 1 ∧ validateArgs ["-x".toList] [] = false :=
  ⟨rfl, rfl⟩

/-- C15, amended. For an empty allowed-list and an argument list of exactly one
element, `validateArgs` returns true when the trimmed element does not start
with `-` and false when it does; under the empty allow-list rejection happens
exactly when there is more than one argument or the single argument, trimmed,
starts with `-`. -/
theorem empty_allow_list_single (a : GoString) :
    (hasDash (TrimSpace a) = false → validateArgs [a] [] = true) ∧
    (hasDash (TrimSpace a) = true → validateArgs [a] [] = false) ∧
    (∀ args : List GoString, validateArgs args [] = false ↔
      (1 < args.length ∨ ∃ x, args = [x] ∧ hasDash (TrimSpace x) = true)) := by
  have h1 : ∀ x : GoString, validateArgs [x] [] = !hasDash (TrimSpace x) := by
    intro x
    have hv : validateArgs [x] [] = argsLoop [] [x] := by
      unfold validateArgs
      rw [if_neg (by simp), if_neg (by simp)]
    rw [hv]
    cases hd : hasDash (TrimSpace x) with
    | false => simp [argsLoop, hd]
    | true =>
      have hlen : (TrimSpace x).length ≠ 0 := by
        intro h0
        rw [List.length_eq_zero] at h0
        rw [h0] at hd
        simp [hasDash] at hd
      simp [argsLoop, hd, hlen]
  refine ⟨fun h => by rw [h1, h]; rfl, fun h => by rw [h1, h]; rfl, ?_⟩
  intro args
  match args with
  | [] => simp [validateArgs, argsLoop]
  | [x] =>
    rw [h1]
    simp
  | x :: y :: rest => simp [validateArgs]

/-- C15, witness: under the empty allow-list the single argument `hello` is
accepted and the single argument `-x` is denied. -/
theorem empty_allow_list_single_witness :
    validateArgs ["hello".toList] [] = true ∧ validateArgs ["-x".toList] [] = false :=
  ⟨(empty_allow_list_single "hello".toList).1 rfl, (empty_allow_list_single "-x".toList).2.1 rfl⟩

/-! ## C16: the escape in the Normal state -/

/-- C16. In the Normal state a backslash writes nothing and the character after
it, whatever it is, is appended to the current token with the state back to
Normal; so for words `a` and `b` (no whitespace, no special character) and any
character `c`, `Parser.Parse` on `a ++ "\" ++ c ++ b` returns the single token
`a ++ c ++ b` with `Position` `-1`. -/
theorem top_level_escape (exec : Exec) (p : Parser) (a b : GoString) (c : Char)
    (ha : ∀ x ∈ a, isSpace x = false ∧ isSpecial x = false)
    (hb : ∀ x ∈ b, isSpace x = false ∧ isSpecial x = false) :
    (∀ (i j : Nat) (look1 look2 : Option Char) (s : Scan), s.state = StateNormal →
      ∃ s1, body exec p i cBackslash look1 s = .next s1 ∧
        body exec p j c look2 s1 = .next { s.write c with state := StateNormal }) ∧
    Parser.Parse exec p (a ++ cBackslash :: c :: b) =
      (.ok [a ++ c :: b], { p with Position := -1 }) := by
  refine ⟨?_, ?_⟩
  · intro i j look1 look2 s hs
    obtain ⟨args, buf, cmd, st, pos⟩ := s
    simp only at hs
    subst hs
    exact ⟨_, body_backslash_normal exec p i look1 args buf cmd pos, rfl⟩
  · have hl : loop exec p 0 (a ++ cBackslash :: c :: b) Scan.init =
        .ok ⟨[], a ++ c :: b, [], StateNormal, -1⟩ := by
      rw [(run_word exec p _ a 0 Scan.init ha rfl).1]
      simp only [loop, Scan.init, body_backslash_normal, body_escaped,
        (run_word_end exec p b _ _ _ _ _ hb).1]
      simp
    unfold Parser.Parse
    rw [hl]
    simp [finish]

/-- C16, witness: `a\ b` gives the single token `a b` and `a\;b` the single
token `a;b`. -/
theorem top_level_escape_witness :
    Parser.Parse noExec (NewParser false) ("a".toList ++ cBackslash :: Char.ofNat 32 :: "b".toList) =
        (.ok ["a b".toList], { NewParser false with Position := -1 }) ∧
      Parser.Parse noExec (NewParser false) ("a".toList ++ cBackslash :: Char.ofNat 59 :: "b".toList) =
        (.ok ["a;b".toList], { NewParser false with Position := -1 }) :=
  ⟨(top_level_escape noExec (NewParser false) "a".toList "b".toList (Char.ofNat 32)
      (by decide) (by decide)).2,
    (top_level_escape noExec (NewParser false) "a".toList "b".toList (Char.ofNat 59)
      (by decide) (by decide)).2⟩

/-! ## C17: substitution with backticks -/

theorem backtick_span_calls (exec : Exec) (p : Parser) (hp : p.ParseBacktick = true)
    (a b X : GoString) (ha : ∀ c ∈ a, isSpace c = false ∧ isSpecial c = false)
    (hb : ∀ c ∈ b, isSpace c = false ∧ isSpecial c = false) (hX : ∀ c ∈ X, c ≠ cBacktick) :
    execCalls exec p 0 (a ++ cBacktick :: (X ++ cBacktick :: b)) Scan.init = [(X, p.Dir)] := by
  rw [(run_word exec p _ a 0 Scan.init ha rfl).2, execCalls_cons]
  simp only [Scan.init, body_open_backtick exec p hp, bodyCall_normal, Option.toList,
    List.nil_append]
  rw [(run_backtick exec p _ X _ _ hX rfl).2, execCalls_cons]
  simp only [List.nil_append, body_close_backtick exec p hp, bodyCall_close_backtick p hp,
    Option.toList]
  cases exec X p.Dir with
  | error e => rfl
  | ok out =>
    simp only [(run_word_end exec p b _ _ _ _ _ hb).2]
    rfl

theorem backtick_span_loop (exec : Exec) (p : Parser) (hp : p.ParseBacktick = true)
    (a b X : GoString) (ha : ∀ c ∈ a, isSpace c = false ∧ isSpecial c = false)
    (hb : ∀ c ∈ b, isSpace c = false ∧ isSpecial c = false) (hX : ∀ c ∈ X, c ≠ cBacktick) :
    loop exec p 0 (a ++ cBacktick :: (X ++ cBacktick :: b)) Scan.init =
      match exec X p.Dir with
      | .error e => .error (.backtickFailed e)
      | .ok out => .ok ⟨[], a ++ out ++ b, [], StateNormal, -1⟩ := by
  rw [(run_word exec p _ a 0 Scan.init ha rfl).1, loop_cons]
  simp only [Scan.init, body_open_backtick exec p hp, List.nil_append]
  rw [(run_backtick exec p _ X _ _ hX rfl).1, loop_cons]
  simp only [List.nil_append, body_close_backtick exec p hp]
  cases exec X p.Dir with
  | error e => rfl
  | ok out => simp only [(run_word_end exec p b _ _ _ _ _ hb).1]

/-- C17, counterexample: with substitution enabled and a helper whose command
succeeds with empty output, the backticked `true` alone (empty `a`, empty `b`)
yields no token, not the single empty token. -/
theorem backtick_empty_output_counterexample :
    silentExec "true".toList (NewParser true).Dir = .ok [] ∧
      (Parser.Parse silentExec (NewParser true)
        ([] ++ cBacktick :: ("true".toList ++ cBacktick :: []))).1 = .ok [] ∧
      (Parser.Parse silentExec (NewParser true)
        ([] ++ cBacktick :: ("true".toList ++ cBacktick :: []))).1 ≠ .ok [[] ++ [] ++ []] := by
  have e : (Parser.Parse silentExec (NewParser true)
      ([] ++ cBacktick :: ("true".toList ++ cBacktick :: []))).1 = .ok [] := rfl
  refine ⟨rfl, e, fun h => ?_⟩
  rw [e] at h
  cases h

/-- C17, amended. With substitution enabled, for words `a` and `b` (no
whitespace, no special character) and a command text `X` without backtick,
`Parser.Parse` on `a`, backtick, `X`, backtick, `b` calls the execution helper
exactly once, on `X` with the parser's directory. If the helper succeeds with
output `out` and `a ++ out ++ b` is non-empty, the result is the single token
`a ++ out ++ b` (not split again); if `a ++ out ++ b` is empty, no token is
returned. If the helper fails, the result is an error and no tokens. -/
theorem backtick_substitution (exec : Exec) (p : Parser) (hp : p.ParseBacktick = true)
    (a b X : GoString) (ha : ∀ c ∈ a, isSpace c = false ∧ isSpecial c = false)
    (hb : ∀ c ∈ b, isSpace c = false ∧ isSpecial c = false) (hX : ∀ c ∈ X, c ≠ cBacktick) :
    execCalls exec p 0 (a ++ cBacktick :: (X ++ cBacktick :: b)) Scan.init = [(X, p.Dir)] ∧
    (∀ out, exec X p.Dir = .ok out → a ++ out ++ b ≠ [] →
      Parser.Parse exec p (a ++ cBacktick :: (X ++ cBacktick :: b)) =
        (.ok [a ++ out ++ b], { p with Position := -1 })) ∧
    (∀ out, exec X p.Dir = .ok out → a ++ out ++ b = [] →
      Parser.Parse exec p (a ++ cBacktick :: (X ++ cBacktick :: b)) =
        (.ok [], { p with Position := -1 })) ∧
    (∀ e, exec X p.Dir = .error e →
      Parser.Parse exec p (a ++ cBacktick :: (X ++ cBacktick :: b)) =
        (.error (.backtickFailed e), p)) := by
  have hl := backtick_span_loop exec p hp a b X ha hb hX
  refine ⟨backtick_span_calls exec p hp a b X ha hb hX, ?_, ?_, ?_⟩
  · intro out ho hne
    rw [ho] at hl
    unfold Parser.Parse
    rw [hl]
    have : (a ++ out ++ b).length > 0 := List.length_pos.mpr hne
    simp only [finish, if_pos this]
    simp
  · intro out ho he
    rw [ho] at hl
    unfold Parser.Parse
    rw [hl]
    simp [finish, he]
  · intro e he
    rw [he] at hl
    unfold Parser.Parse
    rw [hl]

/-- C17, witness: in `/srv`, the text `x=`, backtick, `echo hi there`, backtick,
`!` runs `echo hi there` once in `/srv` and gives the single token
`x=hi there!`. -/
theorem backtick_substitution_witness :
    execCalls greetExec srvParser 0
        ("x=".toList ++ cBacktick :: ("echo hi there".toList ++ cBacktick :: "!".toList))
        Scan.init = [("echo hi there".toList, "/srv".toList)] ∧
      Parser.Parse greetExec srvParser
        ("x=".toList ++ cBacktick :: ("echo hi there".toList ++ cBacktick :: "!".toList)) =
        (.ok ["x=hi there!".toList], { srvParser with Position := -1 }) :=
  have h := backtick_substitution greetExec srvParser rfl "x=".toList "!".toList
    "echo hi there".toList (by decide) (by decide) (by decide)
  ⟨h.1, h.2.1 "hi there".toList rfl (by decide)⟩

/-! ## C18: double quotes -/

/-- C18. For every non-empty text `s` without double quote and backslash,
`Parser.Parse` on `s` wrapped in double quotes succeeds and returns the single
token `s` with `Position` `-1`, whatever else `s` contains. -/
theorem double_quotes_protect (exec : Exec) (p : Parser) (s : GoString) (hne : s ≠ [])
    (hs : ∀ c ∈ s, c ≠ cDouble ∧ c ≠ cBackslash) :
    Parser.Parse exec p (cDouble :: (s ++ [cDouble])) =
      (.ok [s], { p with Position := -1 }) := by
  have hl : loop exec p 0 (cDouble :: (s ++ [cDouble])) Scan.init =
      .ok ⟨[], s, [], StateNormal, -1⟩ := by
    rw [loop_cons]
    simp only [Scan.init, body_open_double]
    rw [(run_double exec p _ s _ _ hs rfl).1, loop_cons]
    simp only [List.nil_append, body_close_double]
    rfl
  unfold Parser.Parse
  rw [hl]
  have : s.length > 0 := List.length_pos.mpr hne
  simp [finish, this]

/-- C18, witness: a double-quoted text holding a space, single quotes,
backticks, `$` and all of `; & | < >`. -/
theorem double_quotes_protect_witness :
    Parser.Parse noExec (NewParser true)
        (cDouble :: (['a', ' ', cSingle, 'b', cSingle, cBacktick, 'c', cBacktick, cDollar,
          Char.ofNat 59, Char.ofNat 38, Char.ofNat 124, Char.ofNat 60, Char.ofNat 62] ++
          [cDouble])) =
      (.ok [['a', ' ', cSingle, 'b', cSingle, cBacktick, 'c', cBacktick, cDollar,
          Char.ofNat 59, Char.ofNat 38, Char.ofNat 124, Char.ofNat 60, Char.ofNat 62]],
        { NewParser true with Position := -1 }) :=
  double_quotes_protect noExec (NewParser true) _ (by simp) (by decide)

/-! ## C19: no empty token -/

theorem flush_args_nonempty (s : Scan) (h : ∀ a ∈ s.args, a ≠ []) :
    ∀ a ∈ s.flush.args, a ≠ [] := by
  unfold Scan.flush
  split
  · intro a ha
    rcases List.mem_append.mp ha with ha | ha
    · exact h a ha
    · rw [List.mem_singleton] at ha
      subst ha
      exact List.length_pos.mp (by assumption)
  · exact h

theorem body_next_args {exec : Exec} {p : Parser} {i : Nat} {r : Char} {look : Option Char}
    {s s1 : Scan} (h : body exec p i r look s = .next s1) :
    s1.args = s.args ∨ s1.args = s.flush.args := by
  unfold body at h
  split at h <;> (try split_ifs at h) <;> (try split at h) <;>
    simp only [Flow.next.injEq, reduceCtorEq] at h <;> subst h <;> simp [Scan.write]

theorem body_args_nonempty (exec : Exec) (p : Parser) (i : Nat) (r : Char)
    (look : Option Char) (s s1 : Scan) (h : ∀ a ∈ s.args, a ≠ [])
    (hb : body exec p i r look s = .next s1 ∨ body exec p i r look s = .endLoop s1) :
    ∀ a ∈ s1.args, a ≠ [] := by
  have hf := flush_args_nonempty s h
  have key : s1.args = s.args ∨ s1.args = s.flush.args := by
    rcases hb with hb | hb
    · exact body_next_args hb
    · rw [(body_endLoop hb).2.2]
      exact Or.inr rfl
  rcases key with k | k <;> rw [k] <;> assumption

theorem loop_args_nonempty (exec : Exec) (p : Parser) : ∀ (l : List Char) (i : Nat)
    (s s1 : Scan), (∀ a ∈ s.args, a ≠ []) → loop exec p i l s = .ok s1 →
    ∀ a ∈ s1.args, a ≠ [] := by
  intro l
  induction l with
  | nil =>
    intro i s s1 h hl
    simp only [loop, Except.ok.injEq] at hl
    rw [← hl]
    exact h
  | cons r rest ih =>
    intro i s s1 h hl
    rw [loop_cons] at hl
    cases hb : body exec p i r rest.head? s with
    | next s2 =>
      rw [hb] at hl
      exact ih (i + 1) s2 s1 (body_args_nonempty exec p i r _ s s2 h (Or.inl hb)) hl
    | endLoop s2 =>
      rw [hb] at hl
      simp only [Except.ok.injEq] at hl
      rw [← hl]
      exact body_args_nonempty exec p i r _ s s2 h (Or.inr hb)
    | ret e => rw [hb] at hl; cases hl

/-- C19. Every token `Parser.Parse` returns is non-empty (with substitution
disabled, and with it enabled as well); the input made of two single quotes
yields the empty sequence, and `Validate` on it fails with the zero-token
error whatever the whitelist. -/
theorem no_empty_token :
    (∀ (exec : Exec) (p : Parser) (text : GoString) (toks : List GoString) (q : Parser),
      Parser.Parse exec p text = (.ok toks, q) → ∀ t ∈ toks, t ≠ []) ∧
    (∀ (exec : Exec) (p : Parser),
      Parser.Parse exec p [cSingle, cSingle] = (.ok [], { p with Position := -1 }) ∧
      Parser.Parse exec p [cDouble, cDouble] = (.ok [], { p with Position := -1 })) ∧
    (∀ (h : Host) (v : Validator), v.Validate h [cSingle, cSingle] = .error .invalidFormat) := by
  refine ⟨?_, fun exec p => ⟨rfl, rfl⟩, fun h v => rfl⟩
  intro exec p text toks q hp t ht
  unfold Parser.Parse at hp
  cases hl : loop exec p 0 text Scan.init with
  | error e => rw [hl] at hp; simp at hp
  | ok s =>
    rw [hl] at hp
    simp only at hp
    have hargs := loop_args_nonempty exec p text 0 Scan.init s (by simp [Scan.init]) hl
    unfold finish at hp
    by_cases hs : s.state = StateNormal
    · simp only [hs, ne_eq, not_true_eq_false, if_false, Prod.mk.injEq, Except.ok.injEq] at hp
      rw [← hp.1] at ht
      by_cases hb : s.currentArgBuf.length > 0
      · rw [if_pos hb] at ht
        rcases List.mem_append.mp ht with ht | ht
        · exact hargs t ht
        · rw [List.mem_singleton] at ht
          subst ht
          exact List.length_pos.mp hb
      · rw [if_neg hb] at ht
        exact hargs t ht
    · simp [hs] at hp

/-- C19, witness: in `a '' b` the empty quoted argument contributes no token;
the tokens are `a` and `b`, both non-empty. -/
theorem no_empty_token_witness :
    Parser.Parse noExec (NewParser false) ['a', ' ', cSingle, cSingle, ' ', 'b'] =
        (.ok [['a'], ['b']], { NewParser false with Position := -1 }) ∧
      ∀ t ∈ [['a'], ['b']], t ≠ ([] : GoString) :=
  ⟨rfl, no_empty_token.1 noExec (NewParser false) ['a', ' ', cSingle, cSingle, ' ', 'b']
    [['a'], ['b']] { NewParser false with Position := -1 } rfl⟩

/-! ## C20: the wildcard among other specifiers -/

/-- C20. For every allowed-list with two or more entries `validateArgs` is the
plain flag check, `*` included as an ordinary entry: it accepts exactly when
every argument whose trimmed form starts with `-` has its part before the
first `=` in the list, so a flag that is not listed is denied. In particular
`["-x"]` is denied under `["*", "-v"]` while it is accepted under `["*"]`. -/
theorem star_is_ordinary_among_others :
    (∀ allowed : List GoString, 2 ≤ allowed.length → ∀ args : List GoString,
      (validateArgs args allowed = true ↔
        ∀ a ∈ args, hasDash (TrimSpace a) = true → beforeEq (TrimSpace a) ∈ allowed) ∧
      (∀ a ∈ args, hasDash (TrimSpace a) = true → beforeEq (TrimSpace a) ∉ allowed →
        validateArgs args allowed = false)) ∧
    validateArgs ["-x".toList] ["*".toList, "-v".toList] = false ∧
    validateArgs ["-x".toList] ["*".toList] = true := by
  refine ⟨?_, rfl, rfl⟩
  intro allowed h2 args
  have hv : validateArgs args allowed = argsLoop allowed args := by
    unfold validateArgs
    rw [if_neg (fun h => by omega), if_neg (fun h => by rw [h] at h2; simp at h2)]
  rw [hv, argsLoop_iff]
  refine ⟨Iff.rfl, fun a ha hd hn => ?_⟩
  cases hl : argsLoop allowed args with
  | false => rfl
  | true => exact absurd ((argsLoop_iff allowed args).mp hl a ha hd) hn

/-- C20, witness: under `["*", "-v"]` the argument list `["-x"]` is denied by
the flag check, `-x` being no entry of the list. -/
theorem star_is_ordinary_among_others_witness :
    validateArgs ["-x".toList] ["*".toList, "-v".toList] = false :=
  (star_is_ordinary_among_others.1 ["*".toList, "-v".toList] (by decide) ["-x".toList]).2
    "-x".toList (by simp) rfl (by decide)

end WhiteCmd
